import Mathlib

/-!
# Verification of the rate-limited, fault-tolerant API access layer

Shallow embedding, in Lean 4, of the core of the `newforp-opinion`
repository: the request governor (circuit breaker, request deduplication,
concurrency/rate limiting), the TTL response cache, the upstream client's
batch price fetching, the price-history synchronization, and the periodic
snapshot job's shutdown path.  Every definition is translated directly from
the TypeScript source; times (`Date.now()` milliseconds, unix seconds) are
modelled as `Int`, decimal price strings as `ℚ`, and JavaScript `Map`s as
association lists with `Map.set`/`Map.delete` semantics.
-/

/-! ## JavaScript string `includes` -/

/-- Does the second character list occur as a prefix of the first?
Helper for modelling JavaScript `String.prototype.includes`. -/
def charsStartWith : List Char → List Char → Bool
  | _, [] => true
  | [], _ :: _ => false
  | a :: as, b :: bs => a == b && charsStartWith as bs

/-- Does the second character list occur contiguously inside the first? -/
def charsOccur : List Char → List Char → Bool
  | [], needle => needle.isEmpty
  | h :: t, needle => charsStartWith (h :: t) needle || charsOccur t needle

/-- Model of JavaScript `haystack.includes(needle)`. -/
def strIncludes (haystack needle : String) : Bool :=
  charsOccur haystack.data needle.data

/-- `rateLimiter.ts`, `CircuitBreaker.onFailure` and
`ExponentialBackoff.executeWithBackoff`: an error counts as a rate-limit
(429) error when its message contains the substring "429" or the substring
"Rate limit". -/
def is429 (msg : String) : Bool :=
  strIncludes msg "429" || strIncludes msg "Rate limit"

/-! ## Circuit breaker (`rateLimiter.ts`, class `CircuitBreaker`) -/

/-- `enum CircuitState` from `rateLimiter.ts`. -/
inductive CircuitState where
  | CLOSED
  | OPEN
  | HALF_OPEN
deriving DecidableEq, Repr

/-- The three constructor parameters of `CircuitBreaker`, with their source
defaults (`failureThreshold = 5`, `recoveryTimeout = 60000` ms,
`successThreshold = 3`). -/
structure CBConfig where
  failureThreshold : Nat := 5
  recoveryTimeout : Int := 60000
  successThreshold : Nat := 3

/-- The default configuration used by `RateLimiterService` (it constructs
`new CircuitBreaker()` with no arguments). -/
def cbDefault : CBConfig := {}

/-- The mutable fields of `CircuitBreaker`, with their initializers. -/
structure CBState where
  state : CircuitState := .CLOSED
  failureCount : Nat := 0
  lastFailureTime : Int := 0
  successCount : Nat := 0
deriving DecidableEq, Repr

/-- A freshly constructed `CircuitBreaker`. -/
def cbInit : CBState := {}

/-- `CircuitBreaker.onSuccess`: reset `failureCount`; in `HALF_OPEN`,
increment `successCount` and close the circuit once it reaches
`successThreshold`. -/
def onSuccess (cfg : CBConfig) (cb : CBState) : CBState :=
  let cb := { cb with failureCount := 0 }
  if cb.state = .HALF_OPEN then
    let cb := { cb with successCount := cb.successCount + 1 }
    if cfg.successThreshold ≤ cb.successCount then { cb with state := .CLOSED }
    else cb
  else cb

/-- `CircuitBreaker.onFailure`: a 429/rate-limit error returns without
touching any counter; otherwise increment `failureCount`, record
`lastFailureTime`, and open the circuit at `failureThreshold`. -/
def onFailure (cfg : CBConfig) (cb : CBState) (now : Int) (msg : String) :
    CBState :=
  if is429 msg then cb
  else
    let cb := { cb with failureCount := cb.failureCount + 1,
                        lastFailureTime := now }
    if cfg.failureThreshold ≤ cb.failureCount then { cb with state := .OPEN }
    else cb

/-- The `try/catch` body of `CircuitBreaker.execute`: run `fn`, route the
outcome through `onSuccess`/`onFailure`, and propagate it. -/
def cbBody (cfg : CBConfig) (cb : CBState) (now : Int)
    (fn : Unit → Except String Unit) : Except String Unit × CBState :=
  match fn () with
  | .ok u => (.ok u, onSuccess cfg cb)
  | .error msg => (.error msg, onFailure cfg cb now msg)

/-- `CircuitBreaker.execute`: when `OPEN`, either move to `HALF_OPEN`
(recovery timeout strictly exceeded) and run the operation, or fail fast
without invoking it; otherwise run the operation.  `fn` is a thunk so that
the fail-fast branch provably never inspects the operation. -/
def cbExecute (cfg : CBConfig) (cb : CBState) (now : Int)
    (fn : Unit → Except String Unit) : Except String Unit × CBState :=
  if cb.state = .OPEN then
    if cfg.recoveryTimeout < now - cb.lastFailureTime then
      cbBody cfg { cb with state := .HALF_OPEN, successCount := 0 } now fn
    else
      (.error "Circuit breaker is OPEN - service temporarily unavailable", cb)
  else cbBody cfg cb now fn

/-- `cbExecute` on an operation with a fixed outcome. -/
def cbExecuteO (cfg : CBConfig) (cb : CBState) (now : Int)
    (res : Except String Unit) : Except String Unit × CBState :=
  cbExecute cfg cb now (fun _ => res)

/-- Fold a sequence of calls (each a time and an operation outcome) through
the circuit breaker, tracking its state. -/
def cbRun (cfg : CBConfig) (cb : CBState)
    (evs : List (Int × Except String Unit)) : CBState :=
  evs.foldl (fun c e => (cbExecuteO cfg c e.1 e.2).2) cb

/-! ### Circuit breaker lemmas -/

theorem cbStep_closed_failure (cfg : CBConfig) (cb : CBState) (now : Int)
    (msg : String) (h : cb.state = .CLOSED) (h4 : is429 msg = false) :
    (cbExecuteO cfg cb now (.error msg)).2 =
      if cfg.failureThreshold ≤ cb.failureCount + 1 then
        { cb with failureCount := cb.failureCount + 1,
                  lastFailureTime := now, state := .OPEN }
      else
        { cb with failureCount := cb.failureCount + 1,
                  lastFailureTime := now } := by
  simp [cbExecuteO, cbExecute, h, cbBody, onFailure, h4]

theorem cbRun_failures_open (cfg : CBConfig) :
    ∀ (evs : List (Int × String)) (cb : CBState), cb.state = .CLOSED →
      (∀ e ∈ evs, is429 e.2 = false) →
      cb.failureCount + evs.length = cfg.failureThreshold → evs ≠ [] →
      (cbRun cfg cb (evs.map (fun e => (e.1, Except.error e.2)))).state =
        .OPEN := by
  intro evs
  induction evs with
  | nil => intro _ _ _ _ hne; exact absurd rfl hne
  | cons e rest ih =>
    intro cb hcl h429 hcount _
    have h4 : is429 e.2 = false := h429 e (List.mem_cons_self e rest)
    have hstep := cbStep_closed_failure cfg cb e.1 e.2 hcl h4
    simp only [cbRun, List.map_cons, List.foldl_cons]
    rcases rest with _ | ⟨r, rs⟩
    · -- the final failure: the counter reaches the threshold
      have hth : cfg.failureThreshold ≤ cb.failureCount + 1 := by
        simp at hcount; omega
      simp only [cbRun] at hstep ⊢
      rw [hstep, if_pos hth]
      simp
    · -- an intermediate failure: the circuit stays CLOSED
      have hlt : ¬ cfg.failureThreshold ≤ cb.failureCount + 1 := by
        simp at hcount; omega
      rw [show (cbExecuteO cfg cb e.1 (Except.error e.2)).2 =
            { cb with failureCount := cb.failureCount + 1,
                      lastFailureTime := e.1 } from by rw [hstep, if_neg hlt]]
      exact ih _ hcl (fun x hx => h429 x (List.mem_cons_of_mem e hx))
        (by simp at hcount ⊢; omega) (by simp)

/-- **C1.** For the circuit breaker: (1) starting from a fresh breaker,
`failureThreshold = 5` consecutive non-429 failures open the circuit;
(2) while `OPEN` and within `recoveryTimeout` of `lastFailureTime`, a call
fails fast with the "service temporarily unavailable" error, leaves the
state untouched, and never invokes the underlying operation (the result is
independent of the operation thunk); (3) a failure whose message indicates
429/rate-limit never changes the failure counter. -/
theorem c1_circuit_breaker (evs : List (Int × String))
    (hlen : evs.length = cbDefault.failureThreshold)
    (h429 : ∀ e ∈ evs, is429 e.2 = false)
    (cb : CBState) (hOpen : cb.state = .OPEN) (now : Int)
    (hWin : now - cb.lastFailureTime ≤ cbDefault.recoveryTimeout)
    (cb2 : CBState) (now2 : Int) (msg : String) (h4 : is429 msg = true) :
    (cbRun cbDefault cbInit (evs.map (fun e => (e.1, Except.error e.2)))).state
        = .OPEN
    ∧ (∀ fn fn2, cbExecute cbDefault cb now fn = cbExecute cbDefault cb now fn2)
    ∧ cbExecute cbDefault cb now (fun _ => .ok ()) =
        (.error "Circuit breaker is OPEN - service temporarily unavailable", cb)
    ∧ (cbExecute cbDefault cb2 now2 (fun _ => .error msg)).2.failureCount =
        cb2.failureCount := by
  have hblock : ∀ fn, cbExecute cbDefault cb now fn =
      (.error "Circuit breaker is OPEN - service temporarily unavailable",
        cb) := by
    intro fn
    have : ¬ cbDefault.recoveryTimeout < now - cb.lastFailureTime :=
      not_lt.mpr hWin
    simp [cbExecute, hOpen, this]
  refine ⟨?_, fun fn fn2 => by rw [hblock fn, hblock fn2], hblock _, ?_⟩
  · exact cbRun_failures_open cbDefault evs cbInit rfl h429
      (by rw [show cbInit.failureCount = 0 from rfl, Nat.zero_add]; exact hlen)
      (by rintro rfl; simp [cbDefault] at hlen)
  · by_cases hs : cb2.state = .OPEN
    · by_cases ht : cbDefault.recoveryTimeout < now2 - cb2.lastFailureTime
      · simp [cbExecute, hs, ht, cbBody, onFailure, h4]
      · simp [cbExecute, hs, ht]
    · simp [cbExecute, hs, cbBody, onFailure, h4]

/-- Witness for C1 at a concrete five-failure trace, a concrete open
breaker inside the recovery window, and a concrete 429 message. -/
theorem c1_circuit_breaker_witness :
    (([((0 : Int), "boom a"), (1, "boom b"), (2, "boom c"), (3, "boom d"),
        (4, "boom e")] : List (Int × String)).length =
      cbDefault.failureThreshold)
    ∧ (∀ e ∈ ([((0 : Int), "boom a"), (1, "boom b"), (2, "boom c"),
        (3, "boom d"), (4, "boom e")] : List (Int × String)),
        is429 e.2 = false)
    ∧ (⟨.OPEN, 5, 4, 0⟩ : CBState).state = .OPEN
    ∧ ((1000 : Int) - (⟨.OPEN, 5, 4, 0⟩ : CBState).lastFailureTime ≤
        cbDefault.recoveryTimeout)
    ∧ is429 "HTTP 429 from upstream" = true
    ∧ ((cbRun cbDefault cbInit
          (([((0 : Int), "boom a"), (1, "boom b"), (2, "boom c"),
            (3, "boom d"), (4, "boom e")] : List (Int × String)).map
            (fun e => (e.1, Except.error e.2)))).state = .OPEN
      ∧ (∀ fn fn2, cbExecute cbDefault ⟨.OPEN, 5, 4, 0⟩ 1000 fn =
          cbExecute cbDefault ⟨.OPEN, 5, 4, 0⟩ 1000 fn2)
      ∧ cbExecute cbDefault ⟨.OPEN, 5, 4, 0⟩ 1000 (fun _ => .ok ()) =
          (.error "Circuit breaker is OPEN - service temporarily unavailable",
            ⟨.OPEN, 5, 4, 0⟩)
      ∧ (cbExecute cbDefault ⟨.CLOSED, 2, 0, 0⟩ 7
          (fun _ => .error "HTTP 429 from upstream")).2.failureCount =
          (⟨.CLOSED, 2, 0, 0⟩ : CBState).failureCount) :=
  ⟨by decide, by decide, rfl, by decide, by decide,
    c1_circuit_breaker _ (by decide) (by decide) _ rfl 1000 (by decide)
      ⟨.CLOSED, 2, 0, 0⟩ 7 _ (by decide)⟩

/-- The concrete trace refuting C3 as stated: five non-429 failures open
the circuit; after the recovery timeout a success moves it to `HALF_OPEN`
(resetting `failureCount` to 0); the next non-429 failure then leaves the
state `HALF_OPEN`, because `failureCount` restarts from 0 and the circuit
only reopens at `failureThreshold`. -/
def c3Trace : List (Int × Except String Unit) :=
  [(0, .error "boom"), (0, .error "boom"), (0, .error "boom"),
    (0, .error "boom"), (0, .error "boom"),
    (60001, .ok ()), (60002, .error "boom")]

/-- **C3 counterexample.** After the trace above the breaker is in
`HALF_OPEN`, not `OPEN` — so a single non-429 failure in `HALF_OPEN` does
not always reopen the circuit. -/
theorem c3_counterexample :
    (cbRun cbDefault cbInit c3Trace).state = .HALF_OPEN ∧
      ¬ (cbRun cbDefault cbInit c3Trace).state = .OPEN := by
  constructor <;> decide

/-- **C3 (amended).** (1) Once the recovery timeout has strictly elapsed,
the next call runs the operation (the call's result is the operation's
outcome) and, on success, leaves the breaker in `HALF_OPEN`;
(2) from `HALF_OPEN` with `successCount = 0`, `successThreshold = 3`
consecutive successes close the circuit; (3) a non-429 failure in
`HALF_OPEN` reopens the circuit exactly when the incremented failure
counter reaches `failureThreshold` — in particular the first failure after
entering `HALF_OPEN` (counter still at the threshold) reopens it, but
after a success in `HALF_OPEN` (counter reset to 0) a single failure
leaves the breaker in `HALF_OPEN`. -/
theorem c3_half_open_transitions (cb : CBState) (hOpen : cb.state = .OPEN)
    (now : Int)
    (hEl : cbDefault.recoveryTimeout < now - cb.lastFailureTime)
    (res : Except String Unit)
    (cb2 : CBState) (h2 : cb2.state = .HALF_OPEN)
    (hsc : cb2.successCount = 0) (t1 t2 t3 : Int)
    (cb3 : CBState) (h3 : cb3.state = .HALF_OPEN) (now3 : Int)
    (msg : String) (hmsg : is429 msg = false) :
    (cbExecute cbDefault cb now (fun _ => res)).1 = res
    ∧ (cbExecute cbDefault cb now (fun _ => .ok ())).2.state = .HALF_OPEN
    ∧ (cbRun cbDefault cb2 [(t1, .ok ()), (t2, .ok ()), (t3, .ok ())]).state
        = .CLOSED
    ∧ (cbExecute cbDefault cb3 now3 (fun _ => .error msg)).2.state =
        (if cbDefault.failureThreshold ≤ cb3.failureCount + 1 then .OPEN
          else .HALF_OPEN) := by
  refine ⟨?_, ?_, ?_, ?_⟩
  · cases res with
    | ok u => simp [cbExecute, hOpen, hEl, cbBody]
    | error m => simp [cbExecute, hOpen, hEl, cbBody]
  · have hEl' : (60000 : Int) < now - cb.lastFailureTime := hEl
    simp [cbExecute, hOpen, hEl', cbBody, onSuccess, cbDefault]
  · simp [cbRun, cbExecuteO, cbExecute, h2, cbBody, onSuccess, hsc, cbDefault]
  · have hno : ¬ cb3.state = .OPEN := by rw [h3]; intro h; cases h
    by_cases hth : cbDefault.failureThreshold ≤ cb3.failureCount + 1
    · simp [cbExecute, hno, cbBody, onFailure, hmsg, hth]
    · simp [cbExecute, hno, cbBody, onFailure, hmsg, hth, h3]

/-- Witness for C3 (amended) at concrete breaker states. -/
theorem c3_half_open_transitions_witness :
    ((⟨.OPEN, 5, 0, 0⟩ : CBState).state = .OPEN
    ∧ cbDefault.recoveryTimeout < (60001 : Int) -
        (⟨.OPEN, 5, 0, 0⟩ : CBState).lastFailureTime
    ∧ (⟨.HALF_OPEN, 0, 0, 0⟩ : CBState).state = .HALF_OPEN
    ∧ (⟨.HALF_OPEN, 0, 0, 0⟩ : CBState).successCount = 0
    ∧ (⟨.HALF_OPEN, 5, 0, 0⟩ : CBState).state = .HALF_OPEN
    ∧ is429 "boom" = false)
    ∧ ((cbExecute cbDefault ⟨.OPEN, 5, 0, 0⟩ 60001
          (fun _ => .error "later")).1 = .error "later"
      ∧ (cbExecute cbDefault ⟨.OPEN, 5, 0, 0⟩ 60001
          (fun _ => .ok ())).2.state = .HALF_OPEN
      ∧ (cbRun cbDefault ⟨.HALF_OPEN, 0, 0, 0⟩
          [((70000 : Int), .ok ()), (70001, .ok ()), (70002, .ok ())]).state
          = .CLOSED
      ∧ (cbExecute cbDefault ⟨.HALF_OPEN, 5, 0, 0⟩ 70003
          (fun _ => .error "boom")).2.state =
          (if cbDefault.failureThreshold ≤
              (⟨.HALF_OPEN, 5, 0, 0⟩ : CBState).failureCount + 1 then .OPEN
            else .HALF_OPEN)) :=
  ⟨⟨rfl, by decide, rfl, rfl, rfl, by decide⟩,
    c3_half_open_transitions ⟨.OPEN, 5, 0, 0⟩ rfl 60001 (by decide)
      (.error "later") ⟨.HALF_OPEN, 0, 0, 0⟩ rfl rfl 70000 70001 70002
      ⟨.HALF_OPEN, 5, 0, 0⟩ rfl 70003 "boom" (by decide)⟩

/-! ## Layer composition of `RateLimiterService.executeRequest`
(`rateLimiter.ts`)

`executeRequest` builds `requestFn` by wrapping `fn` first with
`circuitBreaker.execute`, then with `requestDeduplicator.execute`, and
finally hands the result to `parallelLimiter.execute`.  To reason about
the order in which the three protection layers act on a call, each layer
is modelled as emitting an event when it is entered; `circuitOpen`
abstracts "the breaker is OPEN and the recovery timeout has not elapsed"
(the fail-fast branch of `CircuitBreaker.execute`), and `dedupHit`
abstracts "`pendingRequests` already holds the key" (the join branch of
`RequestDeduplicator.execute`). -/

/-- Observable steps of one `executeRequest` call. -/
inductive GovEvent where
  | rlAdmit
  | dedupLookup
  | cbCheck
  | invoke
deriving DecidableEq, Repr

/-- Result abstraction for the trace model. -/
inductive GovRes where
  | ok
  | cbRejected
  | joinedPending
deriving DecidableEq, Repr

/-- `CircuitBreaker.execute` in the trace model: check the state, then
either fail fast or run the inner operation. -/
def cbExecuteT (circuitOpen : Bool)
    (inner : Unit → List GovEvent × GovRes) : List GovEvent × GovRes :=
  if circuitOpen then ([.cbCheck], .cbRejected)
  else
    let r := inner ()
    (.cbCheck :: r.1, r.2)

/-- `RequestDeduplicator.execute` in the trace model: look the key up,
then either return the pending promise or run the inner operation. -/
def dedupExecuteT (dedupHit : Bool)
    (inner : Unit → List GovEvent × GovRes) : List GovEvent × GovRes :=
  if dedupHit then ([.dedupLookup], .joinedPending)
  else
    let r := inner ()
    (.dedupLookup :: r.1, r.2)

/-- `ParallelRateLimiter.execute` in the trace model: admit the call
through the concurrency/rate limiter, then run the inner operation. -/
def rlExecuteT (inner : Unit → List GovEvent × GovRes) :
    List GovEvent × GovRes :=
  let r := inner ()
  (.rlAdmit :: r.1, r.2)

/-- `RateLimiterService.executeRequest`: mirror of the wrapping code —
`requestFn = fn`; if `useCircuitBreaker`, wrap with the circuit breaker;
if `useDeduplication`, wrap with the deduplicator; if `useRateLimiting`,
run the result under the parallel limiter. -/
def executeRequestT (useCircuitBreaker useDeduplication useRateLimiting
    circuitOpen dedupHit : Bool) : List GovEvent × GovRes :=
  let requestFn : Unit → List GovEvent × GovRes := fun _ => ([.invoke], .ok)
  let requestFn := if useCircuitBreaker then
      fun _ => cbExecuteT circuitOpen requestFn
    else requestFn
  let requestFn := if useDeduplication then
      fun _ => dedupExecuteT dedupHit requestFn
    else requestFn
  if useRateLimiting then rlExecuteT requestFn else requestFn ()

/-- **C2 counterexample.** With all three layers enabled (the defaults)
and the circuit open, the trace of a call is rate-limiter admission, then
the deduplication lookup, then the circuit-breaker check: the
circuit-breaker rejection is not the first step, refuting the claimed
outermost position of the circuit breaker. -/
theorem c2_counterexample :
    (executeRequestT true true true true false).1 =
      [.rlAdmit, .dedupLookup, .cbCheck]
    ∧ (executeRequestT true true true true false).2 = .cbRejected
    ∧ ¬ (executeRequestT true true true true false).1.head? =
        some .cbCheck := by
  refine ⟨rfl, rfl, ?_⟩; decide

/-- **C2 (amended).** In `executeRequest` with all layers enabled, the
composition is rate limiter outermost, wrapping deduplication, wrapping
the circuit breaker innermost: every call is first admitted by the rate
limiter, then looked up in the deduplication registry, and only on a
dedup miss is the circuit breaker consulted; the underlying operation
runs only when the breaker also lets the call through. -/
theorem c2_layer_order (circuitOpen dedupHit : Bool) :
    (executeRequestT true true true circuitOpen dedupHit).1 =
      .rlAdmit :: .dedupLookup ::
        (if dedupHit then []
          else .cbCheck :: (if circuitOpen then [] else [.invoke])) := by
  cases circuitOpen <;> cases dedupHit <;> rfl

/-! ## JavaScript `Map` operations

JavaScript `Map`s are modelled as association lists whose keys are unique
(as they are in a `Map`): `get` is first-match lookup, `set` replaces in
place or appends, `delete` removes the key's entry. -/

/-- `Map.prototype.get`. -/
def mapGet {κ β : Type} [DecidableEq κ] : List (κ × β) → κ → Option β
  | [], _ => none
  | (k', v) :: rest, k => if k' = k then some v else mapGet rest k

/-- `Map.prototype.set`: replace the value in place when the key exists,
otherwise append the new entry at the end (insertion order). -/
def mapSet {κ β : Type} [DecidableEq κ] :
    List (κ × β) → κ → β → List (κ × β)
  | [], k, v => [(k, v)]
  | (k', v') :: rest, k, v =>
      if k' = k then (k', v) :: rest else (k', v') :: mapSet rest k v

/-- `Map.prototype.delete`: remove the key's entry. -/
def mapDelete {κ β : Type} [DecidableEq κ] (m : List (κ × β)) (k : κ) :
    List (κ × β) :=
  m.filter fun e => decide (e.1 ≠ k)

theorem mapGet_mapSet_self {κ β : Type} [DecidableEq κ]
    (m : List (κ × β)) (k : κ) (v : β) : mapGet (mapSet m k v) k = some v := by
  induction m with
  | nil => simp [mapSet, mapGet]
  | cons e rest ih =>
    by_cases h : e.1 = k
    · cases e; simp_all [mapSet, mapGet]
    · cases e; simp_all [mapSet, mapGet]

theorem mapGet_mapSet_ne {κ β : Type} [DecidableEq κ]
    (m : List (κ × β)) (k k' : κ) (v : β) (h : k' ≠ k) :
    mapGet (mapSet m k v) k' = mapGet m k' := by
  induction m with
  | nil =>
    simp only [mapSet, mapGet]
    rw [if_neg (fun h' => h h'.symm)]
  | cons e rest ih =>
    obtain ⟨ek, ev⟩ := e
    by_cases he : ek = k
    · subst he
      simp only [mapSet, if_pos rfl, mapGet]
      rw [if_neg (fun h' => h h'.symm), if_neg (fun h' => h h'.symm)]
    · simp only [mapSet, if_neg he, mapGet]
      by_cases h2 : ek = k'
      · simp [h2]
      · simp [h2, ih]

theorem mapGet_mapDelete_self {κ β : Type} [DecidableEq κ]
    (m : List (κ × β)) (k : κ) : mapGet (mapDelete m k) k = none := by
  induction m with
  | nil => rfl
  | cons e rest ih =>
    by_cases h : e.1 = k
    · simpa [mapDelete, h] using ih
    · cases e; simp_all [mapDelete, mapGet]

theorem mapGet_mapDelete_ne {κ β : Type} [DecidableEq κ]
    (m : List (κ × β)) (k k' : κ) (h : k' ≠ k) :
    mapGet (mapDelete m k) k' = mapGet m k' := by
  induction m with
  | nil => rfl
  | cons e rest ih =>
    obtain ⟨ek, ev⟩ := e
    by_cases he : ek = k
    · subst he
      have hd : mapDelete ((ek, ev) :: rest) ek = mapDelete rest ek := by
        simp [mapDelete]
      rw [hd, ih]
      simp only [mapGet]
      rw [if_neg (fun h' => h h'.symm)]
    · have hd : mapDelete ((ek, ev) :: rest) k = (ek, ev) :: mapDelete rest k := by
        simp [mapDelete, he]
      rw [hd]
      simp only [mapGet]
      by_cases h2 : ek = k'
      · simp [h2]
      · simp [h2, ih]

/-! ## Request deduplication (`rateLimiter.ts`, class `RequestDeduplicator`)

`RequestDeduplicator.execute(key, fn)` returns the pending promise when
`pendingRequests` already holds the key; otherwise it starts `fn()`,
stores the promise under the key, and deletes the entry in a `finally`
handler when the promise settles, successfully or not.  The deduplicator
is modelled as a transition system: promises are numbered (`opId`), a
`call` event is one `execute` invocation by a caller, and a `settle`
event is the `finally` handler of the key's promise firing with the
promise's outcome (`ok = true` for a resolution, `false` for a
rejection), which every caller holding that promise observes. -/

/-- State of the deduplicator together with the observation record. -/
structure DedupState where
  /-- `pendingRequests`: dedup key ↦ in-flight promise (by op id). -/
  pending : List (String × Nat) := []
  /-- Next fresh op id. -/
  nextOp : Nat := 0
  /-- Which promise each caller was handed (newest first). -/
  served : List (Nat × Nat) := []
  /-- Op ids whose underlying `fn()` was actually started. -/
  invoked : List Nat := []
  /-- Settled outcome per op id. -/
  outcomes : List (Nat × Bool) := []
deriving DecidableEq, Repr

/-- Events of the deduplicator system. -/
inductive DedupEvent where
  | call (cid : Nat) (key : String)
  | settle (key : String) (ok : Bool)
deriving DecidableEq, Repr

/-- One transition: `call` follows `RequestDeduplicator.execute`
(join the pending promise on a hit, otherwise invoke `fn` and register the
new promise); `settle` is the promise's `finally` handler (delete the
entry whatever the outcome) plus the outcome becoming visible. -/
def dedupStep (s : DedupState) (ev : DedupEvent) : DedupState :=
  match ev with
  | .call cid k =>
    match mapGet s.pending k with
    | some op => { s with served := (cid, op) :: s.served }
    | none =>
        { s with pending := mapSet s.pending k s.nextOp,
                 nextOp := s.nextOp + 1,
                 served := (cid, s.nextOp) :: s.served,
                 invoked := s.nextOp :: s.invoked }
  | .settle k ok =>
    match mapGet s.pending k with
    | some op => { s with pending := mapDelete s.pending k,
                          outcomes := (op, ok) :: s.outcomes }
    | none => s

/-- Run a list of events. -/
def dedupRun (s : DedupState) (evs : List DedupEvent) : DedupState :=
  evs.foldl dedupStep s

/-- The promise a caller was handed (its most recent call). -/
def callerOp (s : DedupState) (cid : Nat) : Option Nat :=
  mapGet s.served cid

/-- The settled outcome a caller observes through its promise. -/
def callerOutcome (s : DedupState) (cid : Nat) : Option Bool :=
  match callerOp s cid with
  | some op => mapGet s.outcomes op
  | none => none


/-- Equation for a `call` on a key already in flight. -/
theorem dedupStep_call_hit (s : DedupState) (cid : Nat) (k : String)
    (op : Nat) (h : mapGet s.pending k = some op) :
    dedupStep s (.call cid k) = { s with served := (cid, op) :: s.served } := by
  simp [dedupStep, h]

/-- Equation for a `call` on a key not in flight. -/
theorem dedupStep_call_miss (s : DedupState) (cid : Nat) (k : String)
    (h : mapGet s.pending k = none) :
    dedupStep s (.call cid k) =
      { s with pending := mapSet s.pending k s.nextOp,
               nextOp := s.nextOp + 1,
               served := (cid, s.nextOp) :: s.served,
               invoked := s.nextOp :: s.invoked } := by
  simp [dedupStep, h]

/-- Equation for a `settle` of a key in flight. -/
theorem dedupStep_settle_hit (s : DedupState) (k : String) (ok : Bool)
    (op : Nat) (h : mapGet s.pending k = some op) :
    dedupStep s (.settle k ok) =
      { s with pending := mapDelete s.pending k,
               outcomes := (op, ok) :: s.outcomes } := by
  simp [dedupStep, h]

/-- Equation for a `settle` of a key not in flight. -/
theorem dedupStep_settle_miss (s : DedupState) (k : String) (ok : Bool)
    (h : mapGet s.pending k = none) :
    dedupStep s (.settle k ok) = s := by
  simp [dedupStep, h]

/-- Unfolding one event of a run. -/
theorem dedupRun_cons (s : DedupState) (ev : DedupEvent)
    (rest : List DedupEvent) :
    dedupRun s (ev :: rest) = dedupRun (dedupStep s ev) rest := rfl

/-- While no `settle` event for key `k` occurs, the registry entry for `k`
is stable: calls on `k` join it without touching it, and events on other
keys cannot change it. -/
theorem dedupRun_pending_preserved (k : String) (op : Nat) :
    ∀ (mid : List DedupEvent) (s : DedupState),
      mapGet s.pending k = some op →
      (∀ ok, DedupEvent.settle k ok ∉ mid) →
      mapGet (dedupRun s mid).pending k = some op := by
  intro mid
  induction mid with
  | nil => intro s h _; exact h
  | cons ev rest ih =>
    intro s h hset
    have hrest : ∀ ok, DedupEvent.settle k ok ∉ rest := fun ok hm =>
      hset ok (List.mem_cons_of_mem ev hm)
    rw [dedupRun_cons]
    cases ev with
    | call cid k' =>
      cases hmg : mapGet s.pending k' with
      | some op' =>
        rw [dedupStep_call_hit s cid k' op' hmg]
        exact ih _ h hrest
      | none =>
        have hne : k ≠ k' := fun he => by rw [he, hmg] at h; cases h
        rw [dedupStep_call_miss s cid k' hmg]
        apply ih _ _ hrest
        show mapGet (mapSet s.pending k' s.nextOp) k = some op
        rw [mapGet_mapSet_ne _ _ _ _ hne]
        exact h
    | settle k' ok =>
      have hne : k ≠ k' := fun he =>
        hset ok (by rw [he]; exact List.mem_cons_self _ _)
      cases hmg : mapGet s.pending k' with
      | some op' =>
        rw [dedupStep_settle_hit s k' ok op' hmg]
        apply ih _ _ hrest
        show mapGet (mapDelete s.pending k') k = some op
        rw [mapGet_mapDelete_ne _ _ _ hne]
        exact h
      | none =>
        rw [dedupStep_settle_miss s k' ok hmg]
        exact ih _ h hrest

/-- Events of other callers never change which promise caller `c1` holds. -/
theorem dedupRun_callerOp_preserved (c1 : Nat) :
    ∀ (mid : List DedupEvent) (s : DedupState),
      (∀ k', DedupEvent.call c1 k' ∉ mid) →
      callerOp (dedupRun s mid) c1 = callerOp s c1 := by
  intro mid
  induction mid with
  | nil => intro s _; rfl
  | cons ev rest ih =>
    intro s hcall
    have hrest : ∀ k', DedupEvent.call c1 k' ∉ rest := fun k' hm =>
      hcall k' (List.mem_cons_of_mem ev hm)
    rw [dedupRun_cons]
    cases ev with
    | call cid k' =>
      have hne : cid ≠ c1 := fun he =>
        hcall k' (by rw [← he]; exact List.mem_cons_self _ _)
      cases hmg : mapGet s.pending k' with
      | some op' =>
        rw [dedupStep_call_hit s cid k' op' hmg, ih _ hrest]
        simp [callerOp, mapGet, hne]
      | none =>
        rw [dedupStep_call_miss s cid k' hmg, ih _ hrest]
        simp [callerOp, mapGet, hne]
    | settle k' ok =>
      cases hmg : mapGet s.pending k' with
      | some op' =>
        rw [dedupStep_settle_hit s k' ok op' hmg, ih _ hrest]
        simp [callerOp]
      | none =>
        rw [dedupStep_settle_miss s k' ok hmg]
        exact ih _ hrest

/-- **C4.** In any run of the deduplicator: once caller `c1`'s call on key
`k` is served promise `op1`, the registry holds `k ↦ op1` from the start
of the request; any later call on `k` by another caller `c2`, with no
settle of `k` in between, (i) starts no new underlying operation,
(ii) is handed the same promise `op1`, and (iii) observes exactly the
outcome `c1` observes (the shared promise's resolution or rejection).
Moreover a settle of `k` removes the registry entry unconditionally,
whether the promise resolved or rejected. -/
theorem c4_deduplicator (s : DedupState) (k : String) (c1 c2 : Nat)
    (hc : c2 ≠ c1) (mid : List DedupEvent)
    (hsettle : ∀ ok, DedupEvent.settle k ok ∉ mid)
    (hcall : ∀ k', DedupEvent.call c1 k' ∉ mid)
    (op1 : Nat)
    (hop1 : callerOp (dedupStep s (.call c1 k)) c1 = some op1) :
    (mapGet (dedupStep s (.call c1 k)).pending k = some op1
    ∧ (dedupStep (dedupRun (dedupStep s (.call c1 k)) mid)
        (.call c2 k)).invoked =
        (dedupRun (dedupStep s (.call c1 k)) mid).invoked
    ∧ callerOp (dedupStep (dedupRun (dedupStep s (.call c1 k)) mid)
        (.call c2 k)) c2 = some op1
    ∧ callerOutcome (dedupStep (dedupRun (dedupStep s (.call c1 k)) mid)
        (.call c2 k)) c1 =
        callerOutcome (dedupStep (dedupRun (dedupStep s (.call c1 k)) mid)
        (.call c2 k)) c2)
    ∧ (∀ (s' : DedupState) (ok : Bool),
        mapGet (dedupStep s' (.settle k ok)).pending k = none) := by
  have hpend1 : mapGet (dedupStep s (.call c1 k)).pending k = some op1 := by
    cases hmg : mapGet s.pending k with
    | some op =>
      have hop : op = op1 := by
        rw [dedupStep_call_hit s c1 k op hmg] at hop1
        simpa [callerOp, mapGet] using hop1
      rw [dedupStep_call_hit s c1 k op hmg]
      show mapGet s.pending k = some op1
      rw [hmg, hop]
    | none =>
      have hop : s.nextOp = op1 := by
        rw [dedupStep_call_miss s c1 k hmg] at hop1
        simpa [callerOp, mapGet] using hop1
      rw [dedupStep_call_miss s c1 k hmg]
      show mapGet (mapSet s.pending k s.nextOp) k = some op1
      rw [mapGet_mapSet_self, hop]
  have hpend2 : mapGet (dedupRun (dedupStep s (.call c1 k)) mid).pending k =
      some op1 := dedupRun_pending_preserved k op1 mid _ hpend1 hsettle
  have hop1' : callerOp (dedupRun (dedupStep s (.call c1 k)) mid) c1 =
      some op1 := by
    rw [dedupRun_callerOp_preserved c1 mid _ hcall]; exact hop1
  have hstep3 := dedupStep_call_hit
    (dedupRun (dedupStep s (.call c1 k)) mid) c2 k op1 hpend2
  refine ⟨⟨hpend1, ?_, ?_, ?_⟩, ?_⟩
  · rw [hstep3]
  · rw [hstep3]
    simp [callerOp, mapGet]
  · have h1 : callerOp (dedupStep (dedupRun (dedupStep s (.call c1 k)) mid)
        (.call c2 k)) c1 = some op1 := by
      rw [hstep3]
      show mapGet ((c2, op1) :: _) c1 = some op1
      rw [show mapGet ((c2, op1) ::
        (dedupRun (dedupStep s (.call c1 k)) mid).served) c1 =
        mapGet (dedupRun (dedupStep s (.call c1 k)) mid).served c1 from by
          simp [mapGet, hc]]
      exact hop1'
    have h2 : callerOp (dedupStep (dedupRun (dedupStep s (.call c1 k)) mid)
        (.call c2 k)) c2 = some op1 := by
      rw [hstep3]
      simp [callerOp, mapGet]
    simp [callerOutcome, h1, h2]
  · intro s' ok
    cases hmg : mapGet s'.pending k with
    | some op =>
      rw [dedupStep_settle_hit s' k ok op hmg]
      exact mapGet_mapDelete_self _ _
    | none =>
      rw [dedupStep_settle_miss s' k ok hmg]
      exact hmg

/-- Witness for C4: two callers share the key "price", a third caller's
call on another key happens in between, and the settle conjunct is
exercised at that same key. -/
theorem c4_deduplicator_witness :
    ((1 : Nat) ≠ 0
    ∧ (∀ ok, DedupEvent.settle "price" ok ∉ [DedupEvent.call 2 "markets"])
    ∧ (∀ k', DedupEvent.call 0 k' ∉ [DedupEvent.call 2 "markets"])
    ∧ callerOp (dedupStep {} (.call 0 "price")) 0 = some 0)
    ∧ ((mapGet (dedupStep {} (.call 0 "price")).pending "price" = some 0
    ∧ (dedupStep (dedupRun (dedupStep {} (.call 0 "price"))
        [DedupEvent.call 2 "markets"]) (.call 1 "price")).invoked =
        (dedupRun (dedupStep {} (.call 0 "price"))
        [DedupEvent.call 2 "markets"]).invoked
    ∧ callerOp (dedupStep (dedupRun (dedupStep {} (.call 0 "price"))
        [DedupEvent.call 2 "markets"]) (.call 1 "price")) 1 = some 0
    ∧ callerOutcome (dedupStep (dedupRun (dedupStep {} (.call 0 "price"))
        [DedupEvent.call 2 "markets"]) (.call 1 "price")) 0 =
        callerOutcome (dedupStep (dedupRun (dedupStep {} (.call 0 "price"))
        [DedupEvent.call 2 "markets"]) (.call 1 "price")) 1)
    ∧ (∀ (s' : DedupState) (ok : Bool),
        mapGet (dedupStep s' (.settle "price" ok)).pending "price" = none)) :=
  ⟨⟨by decide, by decide, by intro k' h; simp at h, by decide⟩,
    c4_deduplicator {} "price" 0 1 (by decide) [DedupEvent.call 2 "markets"]
      (by decide) (by intro k' h; simp at h) 0 (by decide)⟩

/-! ## Response cache (`src/lib/cache.ts`, class `InMemoryCache`)

`InMemoryCache` keeps a `Map<string, EnhancedCacheEntry>` plus hit/miss
counters.  `get` evicts an expired entry and counts a miss, or bumps the
entry's access statistics and counts a hit; `set` first evicts the oldest
~10% of entries (by `expiresAt`) when the map is at capacity and the key
is new, then stores the fresh entry; `Math.floor(maxSize * 0.1)` is
modelled by exact arithmetic as `maxSize / 10` (`Nat` division). -/

/-- `EnhancedCacheEntry` of `cache.ts`. -/
structure CacheEntry (α : Type) where
  data : α
  expiresAt : Int
  accessCount : Nat
  lastAccessed : Int
deriving DecidableEq, Repr

/-- The state of an `InMemoryCache` (entries map, capacity, stats). -/
structure Cache (α : Type) where
  entries : List (String × CacheEntry α) := []
  maxSize : Nat := 1000
  hits : Nat := 0
  misses : Nat := 0
deriving DecidableEq, Repr

/-- `InMemoryCache.get`: miss on an absent key; delete and miss on an
expired key (`Date.now() > entry.expiresAt`); otherwise bump
`accessCount`/`lastAccessed`, count a hit, and return the data. -/
def cacheGet {α : Type} (c : Cache α) (k : String) (now : Int) :
    Option α × Cache α :=
  match mapGet c.entries k with
  | none => (none, { c with misses := c.misses + 1 })
  | some e =>
    if e.expiresAt < now then
      (none, { c with entries := mapDelete c.entries k,
                      misses := c.misses + 1 })
    else
      let e' : CacheEntry α :=
        { e with accessCount := e.accessCount + 1, lastAccessed := now }
      (some e.data,
        { c with entries := mapSet c.entries k e', hits := c.hits + 1 })

/-- The keys `InMemoryCache.evictOldest` deletes: the first
`max(1, floor(maxSize * 0.1))` keys of the entries sorted by `expiresAt`
(oldest expiry first); the loop also stops at the end of the list. -/
def evictKeys {α : Type} (c : Cache α) : List String :=
  ((c.entries.mergeSort
    (fun a b => decide (a.2.expiresAt ≤ b.2.expiresAt))).take
      (max 1 (c.maxSize / 10))).map Prod.fst

/-- `InMemoryCache.evictOldest`: delete those keys from the map. -/
def evictOldest {α : Type} (c : Cache α) : Cache α :=
  { c with entries := (evictKeys c).foldl mapDelete c.entries }

/-- `InMemoryCache.set`: compute `expiresAt = now + ttlSeconds * 1000`,
make room when the map is at capacity and the key is new, then store the
fresh entry with `accessCount = 1`. -/
def cacheSet {α : Type} (c : Cache α) (k : String) (v : α)
    (ttlSeconds : Int) (now : Int) : Cache α :=
  let expiresAt := now + ttlSeconds * 1000
  let c1 := if c.maxSize ≤ c.entries.length ∧ (mapGet c.entries k).isNone
    then evictOldest c else c
  { c1 with
      entries := mapSet c1.entries k (CacheEntry.mk v expiresAt 1 now) }

/-- A sequence of `set` operations (key, value, ttl, time). -/
def cacheSetOps {α : Type} (c : Cache α)
    (ops : List (String × α × Int × Int)) : Cache α :=
  ops.foldl (fun c o => cacheSet c o.1 o.2.1 o.2.2.1 o.2.2.2) c

/-! ### Map lemmas for the cache -/

theorem mapGet_eq_none_iff {κ β : Type} [DecidableEq κ]
    (m : List (κ × β)) (k : κ) :
    mapGet m k = none ↔ k ∉ m.map Prod.fst := by
  induction m with
  | nil => simp [mapGet]
  | cons e rest ih =>
    obtain ⟨ek, ev⟩ := e
    by_cases he : ek = k
    · simp [mapGet, he]
    · have hke : ¬ k = ek := fun h => he h.symm
      simp [mapGet, he, ih, hke]

theorem length_mapSet_present {κ β : Type} [DecidableEq κ]
    (m : List (κ × β)) (k : κ) (v v' : β) (h : mapGet m k = some v') :
    (mapSet m k v).length = m.length := by
  induction m with
  | nil => cases h
  | cons e rest ih =>
    obtain ⟨ek, ev⟩ := e
    by_cases he : ek = k
    · simp [mapSet, he]
    · simp only [mapGet, if_neg he] at h
      simp [mapSet, he, ih h]

theorem length_mapSet_absent {κ β : Type} [DecidableEq κ]
    (m : List (κ × β)) (k : κ) (v : β) (h : mapGet m k = none) :
    (mapSet m k v).length = m.length + 1 := by
  induction m with
  | nil => simp [mapSet]
  | cons e rest ih =>
    obtain ⟨ek, ev⟩ := e
    by_cases he : ek = k
    · simp only [mapGet, if_pos he] at h; cases h
    · simp only [mapGet, if_neg he] at h
      simp [mapSet, he, ih h]

theorem length_mapSet_le {κ β : Type} [DecidableEq κ]
    (m : List (κ × β)) (k : κ) (v : β) :
    (mapSet m k v).length ≤ m.length + 1 := by
  cases h : mapGet m k with
  | none => rw [length_mapSet_absent m k v h]
  | some v' => rw [length_mapSet_present m k v v' h]; omega

theorem length_mapDelete_le {κ β : Type} [DecidableEq κ]
    (m : List (κ × β)) (k : κ) : (mapDelete m k).length ≤ m.length :=
  List.length_filter_le _ _

theorem length_mapDelete_lt {κ β : Type} [DecidableEq κ]
    (m : List (κ × β)) (k : κ) (h : k ∈ m.map Prod.fst) :
    (mapDelete m k).length < m.length := by
  induction m with
  | nil => cases h
  | cons e rest ih =>
    obtain ⟨ek, ev⟩ := e
    by_cases he : ek = k
    · subst he
      have : mapDelete ((ek, ev) :: rest) ek = mapDelete rest ek := by
        simp [mapDelete]
      rw [this]
      exact Nat.lt_succ_of_le (length_mapDelete_le rest ek)
    · have hd : mapDelete ((ek, ev) :: rest) k = (ek, ev) :: mapDelete rest k := by
        simp [mapDelete, he]
      rw [hd]
      simp only [List.map_cons, List.mem_cons] at h
      rcases h with h | h
      · exact absurd h.symm he
      · simpa using ih h

theorem length_foldl_mapDelete_le {κ β : Type} [DecidableEq κ] :
    ∀ (ks : List κ) (m : List (κ × β)),
      (ks.foldl mapDelete m).length ≤ m.length := by
  intro ks
  induction ks with
  | nil => intro m; exact le_refl _
  | cons k0 kt ih =>
    intro m
    exact le_trans (ih (mapDelete m k0)) (length_mapDelete_le m k0)

theorem mapGet_foldl_mapDelete {κ β : Type} [DecidableEq κ] :
    ∀ (ks : List κ) (m : List (κ × β)) (k' : κ),
      mapGet (ks.foldl mapDelete m) k' =
        if k' ∈ ks then none else mapGet m k' := by
  intro ks
  induction ks with
  | nil => intro m k'; simp
  | cons k0 kt ih =>
    intro m k'
    by_cases h0 : k' = k0
    · subst h0
      simp only [List.foldl_cons, ih, List.mem_cons, true_or, if_pos]
      by_cases hk : k' ∈ kt
      · simp [hk]
      · simp [hk, mapGet_mapDelete_self]
    · simp only [List.foldl_cons, ih]
      by_cases hk : k' ∈ kt
      · simp [hk, h0]
      · simp [hk, h0, mapGet_mapDelete_ne m k0 k' h0]

theorem mapDelete_eq_self {κ β : Type} [DecidableEq κ]
    (m : List (κ × β)) (k : κ) (h : k ∉ m.map Prod.fst) :
    mapDelete m k = m := by
  apply List.filter_eq_self.mpr
  intro e he
  have : e.1 ∈ m.map Prod.fst := List.mem_map_of_mem _ he
  simp only [decide_eq_true_eq]
  intro hek
  exact h (hek ▸ this)

theorem mapDelete_map_fst_sublist {κ β : Type} [DecidableEq κ]
    (m : List (κ × β)) (k : κ) :
    List.Sublist ((mapDelete m k).map Prod.fst) (m.map Prod.fst) :=
  (List.filter_sublist m).map Prod.fst

theorem length_mapDelete_nodup {κ β : Type} [DecidableEq κ]
    (m : List (κ × β)) (k : κ) (hnd : (m.map Prod.fst).Nodup)
    (h : k ∈ m.map Prod.fst) :
    (mapDelete m k).length + 1 = m.length := by
  induction m with
  | nil => cases h
  | cons e rest ih =>
    obtain ⟨ek, ev⟩ := e
    simp only [List.map_cons, List.nodup_cons] at hnd
    by_cases he : ek = k
    · subst he
      have hd : mapDelete ((ek, ev) :: rest) ek = mapDelete rest ek := by
        simp [mapDelete]
      rw [hd, mapDelete_eq_self rest ek hnd.1]
      simp
    · have hd : mapDelete ((ek, ev) :: rest) k =
          (ek, ev) :: mapDelete rest k := by
        simp [mapDelete, he]
      rw [hd]
      simp only [List.map_cons, List.mem_cons] at h
      rcases h with h | h
      · exact absurd h.symm he
      · simpa using ih hnd.2 h

theorem length_foldl_mapDelete_nodup {κ β : Type} [DecidableEq κ] :
    ∀ (ks : List κ) (m : List (κ × β)), ks.Nodup →
      (m.map Prod.fst).Nodup → (∀ k ∈ ks, k ∈ m.map Prod.fst) →
      (ks.foldl mapDelete m).length + ks.length = m.length := by
  intro ks
  induction ks with
  | nil => intro m _ _ _; simp
  | cons k0 kt ih =>
    intro m hknd hmnd hsub
    simp only [List.nodup_cons] at hknd
    have h0 : k0 ∈ m.map Prod.fst := hsub k0 (List.mem_cons_self _ _)
    have hdel := length_mapDelete_nodup m k0 hmnd h0
    have hnd' : ((mapDelete m k0).map Prod.fst).Nodup :=
      hmnd.sublist (mapDelete_map_fst_sublist m k0)
    have hsub' : ∀ k ∈ kt, k ∈ (mapDelete m k0).map Prod.fst := by
      intro k hk
      have hne : k ≠ k0 := fun he => hknd.1 (he ▸ hk)
      have hmem : k ∈ m.map Prod.fst := hsub k (List.mem_cons_of_mem _ hk)
      have : mapGet m k ≠ none := (not_iff_not.mpr
        (mapGet_eq_none_iff m k)).mpr (by simpa using hmem)
      have : mapGet (mapDelete m k0) k ≠ none := by
        rwa [mapGet_mapDelete_ne m k0 k hne]
      by_contra hnot
      exact this ((mapGet_eq_none_iff (mapDelete m k0) k).mpr hnot)
    have := ih (mapDelete m k0) hknd.2 hnd' hsub'
    simp only [List.foldl_cons, List.length_cons]
    omega

/-! ### evictOldest lemmas -/

theorem evictKeys_length {α : Type} (c : Cache α)
    (h : max 1 (c.maxSize / 10) ≤ c.entries.length) :
    (evictKeys c).length = max 1 (c.maxSize / 10) := by
  simp [evictKeys, List.length_take, List.length_mergeSort, min_eq_left h]

theorem evictKeys_nodup {α : Type} (c : Cache α)
    (hnd : (c.entries.map Prod.fst).Nodup) : (evictKeys c).Nodup := by
  have hperm : List.Perm ((c.entries.mergeSort
      (fun a b => decide (a.2.expiresAt ≤ b.2.expiresAt))).map Prod.fst)
      (c.entries.map Prod.fst) := (List.mergeSort_perm _ _).map _
  have hnd' := (hperm.nodup_iff).mpr hnd
  rw [evictKeys, List.map_take]
  exact hnd'.sublist (List.take_sublist _ _)

theorem evictKeys_subset {α : Type} (c : Cache α) :
    ∀ k ∈ evictKeys c, k ∈ c.entries.map Prod.fst := by
  intro k hk
  rw [evictKeys, List.map_take] at hk
  have h1 : k ∈ (c.entries.mergeSort
      (fun a b => decide (a.2.expiresAt ≤ b.2.expiresAt))).map Prod.fst :=
    List.mem_of_mem_take hk
  have hperm : List.Perm ((c.entries.mergeSort
      (fun a b => decide (a.2.expiresAt ≤ b.2.expiresAt))).map Prod.fst)
      (c.entries.map Prod.fst) := (List.mergeSort_perm _ _).map _
  exact hperm.mem_iff.mp h1

theorem evictOldest_length_lt {α : Type} (c : Cache α)
    (hne : c.entries ≠ []) :
    (evictOldest c).entries.length < c.entries.length := by
  have hlen : 1 ≤ c.entries.length := by
    cases h : c.entries with
    | nil => exact absurd h hne
    | cons a l => simp [h]
  rcases hk : evictKeys c with _ | ⟨k0, kt⟩
  · exfalso
    have hlen2 : (evictKeys c).length =
        min (max 1 (c.maxSize / 10)) c.entries.length := by
      rw [evictKeys, List.length_map, List.length_take,
        List.length_mergeSort]
    have hmin : 1 ≤ min (max 1 (c.maxSize / 10)) c.entries.length :=
      le_min (le_max_left _ _) hlen
    rw [← hlen2, hk] at hmin
    simp at hmin
  · have hmem : k0 ∈ c.entries.map Prod.fst :=
      evictKeys_subset c k0 (by rw [hk]; exact List.mem_cons_self _ _)
    show ((evictKeys c).foldl mapDelete c.entries).length < _
    rw [hk]
    simp only [List.foldl_cons]
    exact lt_of_le_of_lt (length_foldl_mapDelete_le kt _)
      (length_mapDelete_lt c.entries k0 hmem)

theorem evictOldest_length_exact {α : Type} (c : Cache α)
    (hnd : (c.entries.map Prod.fst).Nodup)
    (h : max 1 (c.maxSize / 10) ≤ c.entries.length) :
    (evictOldest c).entries.length + max 1 (c.maxSize / 10) =
      c.entries.length := by
  rw [← evictKeys_length c h]
  exact length_foldl_mapDelete_nodup (evictKeys c) c.entries
    (evictKeys_nodup c hnd) hnd (evictKeys_subset c)

/-! ### cacheSet / cacheGet equations -/

theorem cacheSet_entries_evict {α : Type} (c : Cache α) (k : String)
    (v : α) (ttl now : Int)
    (h : c.maxSize ≤ c.entries.length ∧ (mapGet c.entries k).isNone) :
    (cacheSet c k v ttl now).entries =
      mapSet (evictOldest c).entries k
        (CacheEntry.mk v (now + ttl * 1000) 1 now) := by
  simp only [cacheSet, if_pos h]

theorem cacheSet_entries_noevict {α : Type} (c : Cache α) (k : String)
    (v : α) (ttl now : Int)
    (h : ¬ (c.maxSize ≤ c.entries.length ∧ (mapGet c.entries k).isNone)) :
    (cacheSet c k v ttl now).entries =
      mapSet c.entries k (CacheEntry.mk v (now + ttl * 1000) 1 now) := by
  simp only [cacheSet, if_neg h]

theorem cacheSet_maxSize {α : Type} (c : Cache α) (k : String) (v : α)
    (ttl now : Int) : (cacheSet c k v ttl now).maxSize = c.maxSize := by
  by_cases h : c.maxSize ≤ c.entries.length ∧ (mapGet c.entries k).isNone
  · simp only [cacheSet, if_pos h]; rfl
  · simp only [cacheSet, if_neg h]

theorem cacheSet_get_self {α : Type} (c : Cache α) (k : String) (v : α)
    (ttl now : Int) :
    mapGet (cacheSet c k v ttl now).entries k =
      some (CacheEntry.mk v (now + ttl * 1000) 1 now) := by
  by_cases h : c.maxSize ≤ c.entries.length ∧ (mapGet c.entries k).isNone
  · rw [cacheSet_entries_evict c k v ttl now h]
    exact mapGet_mapSet_self _ _ _
  · rw [cacheSet_entries_noevict c k v ttl now h]
    exact mapGet_mapSet_self _ _ _

theorem cacheGet_hit {α : Type} (c : Cache α) (k : String) (now : Int)
    (e : CacheEntry α) (hk : mapGet c.entries k = some e)
    (hexp : ¬ e.expiresAt < now) :
    cacheGet c k now = (some e.data,
      { c with
          entries := mapSet c.entries k
            (CacheEntry.mk e.data e.expiresAt (e.accessCount + 1) now),
          hits := c.hits + 1 }) := by
  simp [cacheGet, hk, hexp]

theorem cacheGet_expired {α : Type} (c : Cache α) (k : String) (now : Int)
    (e : CacheEntry α) (hk : mapGet c.entries k = some e)
    (hexp : e.expiresAt < now) :
    cacheGet c k now = (none,
      { c with entries := mapDelete c.entries k,
               misses := c.misses + 1 }) := by
  simp [cacheGet, hk, hexp]

/-- **C6.** For the response cache: after `set(k, v, ttl)` at time `now`
(with `ttl ≥ 0`), an immediate `get(k)` returns `v`, bumps the entry's
`accessCount` from 1 to 2 and its `lastAccessed`, and counts a hit; once
more than `ttl` seconds have elapsed (`now' > now + ttl*1000` ms),
`get(k)` returns `none` and deletes the entry; and in general, on a key
holding entry `e`, `get` at time `now'` returns the stored value exactly
when `now' ≤ e.expiresAt`. -/
theorem c6_cache_ttl {α : Type} (c : Cache α) (k : String) (v : α)
    (ttl : Int) (httl : 0 ≤ ttl) (now now' : Int)
    (c' : Cache α) (e : CacheEntry α) (hk : mapGet c'.entries k = some e) :
    (cacheGet (cacheSet c k v ttl now) k now).1 = some v
    ∧ mapGet (cacheGet (cacheSet c k v ttl now) k now).2.entries k =
        some (CacheEntry.mk v (now + ttl * 1000) 2 now)
    ∧ (cacheGet (cacheSet c k v ttl now) k now).2.hits =
        (cacheSet c k v ttl now).hits + 1
    ∧ (now + ttl * 1000 < now' →
        (cacheGet (cacheSet c k v ttl now) k now').1 = none
        ∧ mapGet (cacheGet (cacheSet c k v ttl now) k now').2.entries k =
            none)
    ∧ ((cacheGet c' k now').1 = some e.data ↔ now' ≤ e.expiresAt) := by
  have hset := cacheSet_get_self c k v ttl now
  have hexp : ¬ (CacheEntry.mk v (now + ttl * 1000) 1 now).expiresAt < now
      := by
    show ¬ now + ttl * 1000 < now
    have : 0 ≤ ttl * 1000 := mul_nonneg httl (by norm_num)
    omega
  have hhit := cacheGet_hit (cacheSet c k v ttl now) k now _ hset hexp
  refine ⟨?_, ?_, ?_, ?_, ?_⟩
  · rw [hhit]
  · rw [hhit]
    show mapGet (mapSet _ k _) k = _
    exact mapGet_mapSet_self _ _ _
  · rw [hhit]
  · intro hlate
    have hexp' : (CacheEntry.mk v (now + ttl * 1000) 1 now).expiresAt < now'
        := hlate
    have hex := cacheGet_expired (cacheSet c k v ttl now) k now' _ hset hexp'
    constructor
    · rw [hex]
    · rw [hex]
      show mapGet (mapDelete _ k) k = none
      exact mapGet_mapDelete_self _ _
  · by_cases hexp2 : now' ≤ e.expiresAt
    · have := cacheGet_hit c' k now' e hk (not_lt.mpr hexp2)
      rw [this]
      simp [hexp2]
    · have := cacheGet_expired c' k now' e hk (lt_of_not_le hexp2)
      rw [this]
      simp [hexp2]

/-- Witness for C6 at a concrete cache, key, value and times. -/
theorem c6_cache_ttl_witness :
    ((0 : Int) ≤ 30
    ∧ mapGet ({ entries := [("k", CacheEntry.mk 7 5000 1 0)] } :
        Cache Nat).entries "k" = some (CacheEntry.mk 7 5000 1 0))
    ∧ ((cacheGet (cacheSet ({} : Cache Nat) "k" 42 30 0) "k" 0).1 = some 42
    ∧ mapGet (cacheGet (cacheSet ({} : Cache Nat) "k" 42 30 0) "k"
        0).2.entries "k" = some (CacheEntry.mk 42 ((0 : Int) + 30 * 1000) 2 0)
    ∧ (cacheGet (cacheSet ({} : Cache Nat) "k" 42 30 0) "k" 0).2.hits =
        (cacheSet ({} : Cache Nat) "k" 42 30 0).hits + 1
    ∧ ((0 : Int) + 30 * 1000 < 30001 →
        (cacheGet (cacheSet ({} : Cache Nat) "k" 42 30 0) "k" 30001).1 = none
        ∧ mapGet (cacheGet (cacheSet ({} : Cache Nat) "k" 42 30 0) "k"
            30001).2.entries "k" = none)
    ∧ ((cacheGet ({ entries := [("k", CacheEntry.mk 7 5000 1 0)] } :
          Cache Nat) "k" 30001).1 = some (CacheEntry.mk 7 5000 1 0).data ↔
        (30001 : Int) ≤ (CacheEntry.mk 7 5000 1 0).expiresAt)) :=
  ⟨⟨by decide, by decide⟩,
    c6_cache_ttl ({} : Cache Nat) "k" 42 30 (by decide) 0 30001
      ({ entries := [("k", CacheEntry.mk 7 5000 1 0)] } : Cache Nat)
      (CacheEntry.mk 7 5000 1 0) (by decide)⟩

theorem cacheSet_length_le {α : Type} (c : Cache α) (k : String) (v : α)
    (ttl now : Int) (hmax : 1 ≤ c.maxSize)
    (hlen : c.entries.length ≤ c.maxSize) :
    (cacheSet c k v ttl now).entries.length ≤ c.maxSize := by
  by_cases hcond : c.maxSize ≤ c.entries.length ∧ (mapGet c.entries k).isNone
  · have hne : c.entries ≠ [] := by
      intro h
      rw [h] at hcond
      have := hcond.1
      simp at this
      omega
    have hev := evictOldest_length_lt c hne
    rw [cacheSet_entries_evict c k v ttl now hcond]
    calc (mapSet (evictOldest c).entries k
          (CacheEntry.mk v (now + ttl * 1000) 1 now)).length
        ≤ (evictOldest c).entries.length + 1 := length_mapSet_le _ _ _
      _ ≤ c.entries.length := hev
      _ ≤ c.maxSize := hlen
  · rw [cacheSet_entries_noevict c k v ttl now hcond]
    push_neg at hcond
    cases hget : mapGet c.entries k with
    | some e =>
      rw [length_mapSet_present c.entries k _ e hget]
      exact hlen
    | none =>
      have hlt : c.entries.length < c.maxSize := by
        by_contra hge
        exact absurd (Option.isNone_iff_eq_none.mpr hget)
          (by simpa using hcond (by omega))
      rw [length_mapSet_absent c.entries k _ hget]
      omega

/-- **C7 counterexample.** With capacity `maxSize = 0`, a single `set`
leaves the cache holding one entry — more than `maxSize` — because
`evictOldest` has nothing to remove from an empty map before the insert.
So the capacity claim fails as stated for the degenerate capacity 0. -/
theorem c7_counterexample :
    (cacheSet ({ maxSize := 0 } : Cache Nat) "a" 1 30 0).entries.length = 1
    ∧ ({ maxSize := 0 } : Cache Nat).maxSize = 0
    ∧ ¬ ((cacheSet ({ maxSize := 0 } : Cache Nat) "a" 1 30
          0).entries.length ≤ ({ maxSize := 0 } : Cache Nat).maxSize) := by
  have h1 : (cacheSet ({ maxSize := 0 } : Cache Nat) "a" 1 30 0).entries =
      [("a", CacheEntry.mk 1 (0 + 30 * 1000) 1 0)] := by
    simp [cacheSet, evictOldest, evictKeys, mapGet, mapSet]
  refine ⟨by rw [h1]; rfl, rfl, ?_⟩
  rw [h1]
  decide

/-- **C7 (amended).** For every capacity `maxSize ≥ 1`: starting from a
cache holding at most `maxSize` entries, no sequence of `set` operations
ever leaves more than `maxSize` entries (at `maxSize = 0` a single `set`
already violates this, see the counterexample).  When a `set` with a new
key arrives at capacity (with distinct stored keys), exactly
`max 1 (floor (maxSize / 10))` entries are evicted before the insert, so
the resulting size is `maxSize + 1 - max 1 (floor (maxSize / 10))`; the
evicted entries are precisely the first `max 1 (floor (maxSize / 10))`
keys of the entries ordered by `expiresAt` (oldest first). -/
theorem c7_cache_capacity {α : Type} (c : Cache α) (hmax : 1 ≤ c.maxSize)
    (hlen : c.entries.length ≤ c.maxSize)
    (ops : List (String × α × Int × Int))
    (k : String) (v : α) (ttl now : Int) :
    (cacheSetOps c ops).entries.length ≤ c.maxSize
    ∧ (c.entries.length = c.maxSize → mapGet c.entries k = none →
        (c.entries.map Prod.fst).Nodup →
        (cacheSet c k v ttl now).entries.length =
          c.maxSize + 1 - max 1 (c.maxSize / 10))
    ∧ (∀ k', mapGet (evictOldest c).entries k' =
        if k' ∈ evictKeys c then none else mapGet c.entries k') := by
  refine ⟨?_, ?_, ?_⟩
  · -- the capacity invariant is preserved by every set in the sequence
    suffices h : ∀ (ops : List (String × α × Int × Int)) (c : Cache α),
        1 ≤ c.maxSize → c.entries.length ≤ c.maxSize →
        (cacheSetOps c ops).entries.length ≤ c.maxSize ∧
          (cacheSetOps c ops).maxSize = c.maxSize by
      exact (h ops c hmax hlen).1
    intro ops
    induction ops with
    | nil => intro c h1 h2; exact ⟨h2, rfl⟩
    | cons o rest ih =>
      intro c h1 h2
      have hstep := cacheSet_length_le c o.1 o.2.1 o.2.2.1 o.2.2.2 h1 h2
      have hms := cacheSet_maxSize c o.1 o.2.1 o.2.2.1 o.2.2.2
      have := ih (cacheSet c o.1 o.2.1 o.2.2.1 o.2.2.2)
        (by rw [hms]; exact h1) (by rw [hms]; exact hstep)
      exact ⟨by simpa [cacheSetOps, hms] using this.1,
        by simpa [cacheSetOps, hms] using this.2⟩
  · intro hful hnew hnd
    have hcond : c.maxSize ≤ c.entries.length ∧
        (mapGet c.entries k).isNone := by
      constructor
      · omega
      · simp [hnew]
    have hn : max 1 (c.maxSize / 10) ≤ c.entries.length := by
      have h10 : c.maxSize / 10 ≤ c.maxSize := Nat.div_le_self _ _
      have := max_le (le_trans hmax (le_of_eq hful.symm))
        (le_trans h10 (le_of_eq hful.symm))
      exact this
    have hexact := evictOldest_length_exact c hnd hn
    rw [cacheSet_entries_evict c k v ttl now hcond]
    have hnewkey : mapGet (evictOldest c).entries k = none := by
      have : mapGet ((evictKeys c).foldl mapDelete c.entries) k =
          if k ∈ evictKeys c then none else mapGet c.entries k :=
        mapGet_foldl_mapDelete (evictKeys c) c.entries k
      by_cases hk : k ∈ evictKeys c
      · show mapGet ((evictKeys c).foldl mapDelete c.entries) k = none
        rw [this, if_pos hk]
      · show mapGet ((evictKeys c).foldl mapDelete c.entries) k = none
        rw [this, if_neg hk]
        exact hnew
    rw [length_mapSet_absent _ _ _ hnewkey]
    omega
  · intro k'
    exact mapGet_foldl_mapDelete (evictKeys c) c.entries k'

/-- Witness for C7 (amended) at a concrete cache of capacity 2 holding
two entries, a fresh key, and a two-element sequence of sets. -/
theorem c7_cache_capacity_witness :
    ((1 : Nat) ≤ ({ entries := [("a", CacheEntry.mk 1 1000 1 0),
        ("b", CacheEntry.mk 2 2000 1 0)], maxSize := 2 } :
        Cache Nat).maxSize
    ∧ ({ entries := [("a", CacheEntry.mk 1 1000 1 0),
        ("b", CacheEntry.mk 2 2000 1 0)], maxSize := 2 } :
        Cache Nat).entries.length ≤ 2)
    ∧ ((cacheSetOps ({ entries := [("a", CacheEntry.mk 1 1000 1 0),
          ("b", CacheEntry.mk 2 2000 1 0)], maxSize := 2 } : Cache Nat)
          [("c", 3, 30, 0), ("d", 4, 30, 1)]).entries.length ≤ 2
    ∧ (({ entries := [("a", CacheEntry.mk 1 1000 1 0),
          ("b", CacheEntry.mk 2 2000 1 0)], maxSize := 2 } :
          Cache Nat).entries.length = 2 →
        mapGet ({ entries := [("a", CacheEntry.mk 1 1000 1 0),
          ("b", CacheEntry.mk 2 2000 1 0)], maxSize := 2 } :
          Cache Nat).entries "c" = none →
        (({ entries := [("a", CacheEntry.mk 1 1000 1 0),
          ("b", CacheEntry.mk 2 2000 1 0)], maxSize := 2 } :
          Cache Nat).entries.map Prod.fst).Nodup →
        (cacheSet ({ entries := [("a", CacheEntry.mk 1 1000 1 0),
          ("b", CacheEntry.mk 2 2000 1 0)], maxSize := 2 } : Cache Nat)
          "c" 3 30 0).entries.length = 2 + 1 - max 1 (2 / 10))
    ∧ (∀ k', mapGet (evictOldest ({ entries :=
          [("a", CacheEntry.mk 1 1000 1 0),
           ("b", CacheEntry.mk 2 2000 1 0)], maxSize := 2 } :
          Cache Nat)).entries k' =
        if k' ∈ evictKeys ({ entries := [("a", CacheEntry.mk 1 1000 1 0),
          ("b", CacheEntry.mk 2 2000 1 0)], maxSize := 2 } : Cache Nat)
        then none
        else mapGet ({ entries := [("a", CacheEntry.mk 1 1000 1 0),
          ("b", CacheEntry.mk 2 2000 1 0)], maxSize := 2 } :
          Cache Nat).entries k')) :=
  ⟨⟨by decide, by decide⟩,
    c7_cache_capacity ({ entries := [("a", CacheEntry.mk 1 1000 1 0),
        ("b", CacheEntry.mk 2 2000 1 0)], maxSize := 2 } : Cache Nat)
      (by decide) (by decide) [("c", 3, 30, 0), ("d", 4, 30, 1)]
      "c" 3 30 0⟩

/-! ## Price-history synchronization (`synchronizePriceHistory`,
route `charts/price-history`)

Decimal price strings are modelled as rationals (`ℚ`): `parseFloat` of a
decimal literal is its exact value, and `parsePrice` (`utils.ts`) keeps a
parsed price only when it is a valid non-negative finite number,
otherwise 0.  `transformNoPrice`/`noAsYes` (`analytics.ts`/`utils.ts`) is
`1 - price`.  JavaScript `Set` iteration order (insertion order, first
occurrence) is modelled by `uniqueFirst`, and `Array.prototype.sort` with
a numeric comparator by `mergeSort`. -/

/-- `PriceHistoryPoint` with its decimal price string as a rational. -/
structure PricePoint where
  t : Int
  p : ℚ
deriving DecidableEq, Repr

/-- `utils.ts` `parsePrice`: the parsed value when valid (non-negative),
otherwise 0. -/
def parsePrice (p : ℚ) : ℚ := if 0 ≤ p then p else 0

/-- `utils.ts` `noAsYes`. -/
def noAsYes (noPrice : ℚ) : ℚ := 1 - noPrice

/-- `analytics.ts` `transformNoPrice`. -/
def transformNoPrice (noPrice : ℚ) : ℚ := noAsYes noPrice

/-- One `forEach` step populating a price map: validate the (original)
parsed price is in `[0, 1]`, then store `val price` under the timestamp. -/
def priceStep (val : ℚ → ℚ) (m : List (Int × ℚ)) (pt : PricePoint) :
    List (Int × ℚ) :=
  let price := parsePrice pt.p
  if 0 ≤ price ∧ price ≤ 1 then mapSet m pt.t (val price) else m

/-- Populate a timestamp ↦ price map from a history. -/
def priceMapFold (val : ℚ → ℚ) (hist : List PricePoint) :
    List (Int × ℚ) :=
  hist.foldl (priceStep val) []

/-- First-occurrence deduplication: JavaScript `Array.from(new Set(l))`. -/
def uniqueFirst {κ : Type} [DecidableEq κ] : List κ → List κ
  | [] => []
  | x :: xs => x :: uniqueFirst (xs.filter (fun y => decide (y ≠ x)))
termination_by l => l.length
decreasing_by
  simp only [List.length_cons]
  exact Nat.lt_succ_of_le (List.length_filter_le _ _)

/-- The result record of `synchronizePriceHistory`. -/
structure SyncOut where
  timestamps : List Int
  yesPrices : List ℚ
  noAsYesPrices : List ℚ
deriving DecidableEq, Repr

/-- `synchronizePriceHistory`: build the YES map (validated prices) and
the NO map (validated prices transformed by `1 - price`), collect the
sorted set of all timestamps, and keep exactly the timestamps where both
maps are defined, in order. -/
def synchronizePriceHistory (yesHistory noHistory : List PricePoint) :
    SyncOut :=
  let yesMap := priceMapFold id yesHistory
  let noMap := priceMapFold transformNoPrice noHistory
  let allTimestamps :=
    uniqueFirst (yesHistory.map PricePoint.t ++ noHistory.map PricePoint.t)
  let sortedTimestamps := allTimestamps.mergeSort (fun a b => decide (a ≤ b))
  let synced := sortedTimestamps.filterMap (fun ts =>
    match mapGet yesMap ts, mapGet noMap ts with
    | some y, some n => some (ts, y, n)
    | _, _ => none)
  { timestamps := synced.map Prod.fst,
    yesPrices := synced.map (fun s => s.2.1),
    noAsYesPrices := synced.map (fun s => s.2.2) }

theorem mem_uniqueFirst {κ : Type} [DecidableEq κ] :
    ∀ (l : List κ) (a : κ), a ∈ uniqueFirst l ↔ a ∈ l := by
  have H : ∀ (n : Nat) (l : List κ), l.length ≤ n → ∀ a,
      (a ∈ uniqueFirst l ↔ a ∈ l) := by
    intro n
    induction n with
    | zero =>
      intro l hl a
      rw [List.length_eq_zero.mp (Nat.le_zero.mp hl)]
      simp [uniqueFirst]
    | succ n ih =>
      intro l hl a
      cases l with
      | nil => simp [uniqueFirst]
      | cons x xs =>
        rw [uniqueFirst]
        have hfl : (xs.filter (fun y => decide (y ≠ x))).length ≤ n := by
          have := List.length_filter_le (fun y => decide (y ≠ x)) xs
          simp only [List.length_cons] at hl
          omega
        by_cases hax : a = x
        · subst hax
          simp
        · simp only [List.mem_cons, ih _ hfl a, List.mem_filter,
            decide_eq_true_eq]
          constructor
          · rintro (h | ⟨h, _⟩)
            · exact Or.inl h
            · exact Or.inr h
          · rintro (h | h)
            · exact Or.inl h
            · exact Or.inr ⟨h, hax⟩
  intro l a
  exact H l.length l (le_refl _) a

theorem priceStep_get_ne (val : ℚ → ℚ) (m : List (Int × ℚ))
    (pt : PricePoint) (ts : Int) (h : ts ≠ pt.t) :
    mapGet (priceStep val m pt) ts = mapGet m ts := by
  simp only [priceStep]
  by_cases hc : 0 ≤ parsePrice pt.p ∧ parsePrice pt.p ≤ 1
  · rw [if_pos hc]
    exact mapGet_mapSet_ne _ _ _ _ h
  · rw [if_neg hc]

theorem mapGet_priceMapFold_none (val : ℚ → ℚ) (hist : List PricePoint)
    (ts : Int) (h : ts ∉ hist.map PricePoint.t) :
    mapGet (priceMapFold val hist) ts = none := by
  suffices H : ∀ (hist : List PricePoint) (m : List (Int × ℚ)),
      ts ∉ hist.map PricePoint.t →
      mapGet (hist.foldl (priceStep val) m) ts = mapGet m ts by
    exact (H hist [] h).trans rfl
  intro hist'
  induction hist' with
  | nil => intro m _; rfl
  | cons pt rest ih =>
    intro m hmem
    simp only [List.map_cons, List.mem_cons, not_or] at hmem
    simp only [List.foldl_cons]
    rw [ih _ hmem.2, priceStep_get_ne val m pt ts hmem.1]

/-- **C8.** Price-history synchronization: (1) with YES history
`[(t = 1, p = 0.6)]` and NO history `[(t = 1, p = 0.4)]`, the output is
timestamps `[1]`, yesPrices `[0.6]` and noAsYesPrices `[0.6]` (the NO
price transformed by `1 - 0.4`); (2) for any two histories whose
timestamp sets do not overlap, all three output arrays are empty. -/
theorem c8_price_history_sync (yesH noH : List PricePoint)
    (hdisj : ∀ ts ∈ yesH.map PricePoint.t, ts ∉ noH.map PricePoint.t) :
    synchronizePriceHistory [⟨1, (3 : ℚ)/5⟩] [⟨1, (2 : ℚ)/5⟩] =
      ⟨[1], [(3 : ℚ)/5], [(3 : ℚ)/5]⟩
    ∧ synchronizePriceHistory yesH noH = ⟨[], [], []⟩ := by
  constructor
  · norm_num [synchronizePriceHistory, priceMapFold, priceStep, parsePrice,
      transformNoPrice, noAsYes, uniqueFirst, mapGet, mapSet,
      List.filterMap_cons]
  · have hsync : (((uniqueFirst (yesH.map PricePoint.t ++
        noH.map PricePoint.t)).mergeSort
          (fun a b => decide (a ≤ b))).filterMap (fun ts =>
        match mapGet (priceMapFold id yesH) ts,
          mapGet (priceMapFold transformNoPrice noH) ts with
        | some y, some n => some (ts, y, n)
        | _, _ => none)) = [] := by
      rw [List.filterMap_eq_nil_iff]
      intro ts hts
      have hmem : ts ∈ yesH.map PricePoint.t ++ noH.map PricePoint.t := by
        have h1 := List.mem_mergeSort.mp hts
        exact (mem_uniqueFirst _ ts).mp h1
      rcases List.mem_append.mp hmem with hy | hn
      · have hno : mapGet (priceMapFold transformNoPrice noH) ts = none :=
          mapGet_priceMapFold_none _ _ _ (hdisj ts hy)
        rw [hno]
        cases mapGet (priceMapFold id yesH) ts <;> rfl
      · have hyes : mapGet (priceMapFold id yesH) ts = none := by
          apply mapGet_priceMapFold_none
          intro hy
          exact hdisj ts hy hn
        rw [hyes]
    show SyncOut.mk _ _ _ = _
    rw [hsync]
    rfl

/-- Witness for C8 at concrete non-overlapping histories. -/
theorem c8_price_history_sync_witness :
    (∀ ts ∈ ([⟨1, (1 : ℚ)/2⟩] : List PricePoint).map PricePoint.t,
      ts ∉ ([⟨2, (1 : ℚ)/2⟩] : List PricePoint).map PricePoint.t)
    ∧ (synchronizePriceHistory [⟨1, (3 : ℚ)/5⟩] [⟨1, (2 : ℚ)/5⟩] =
        ⟨[1], [(3 : ℚ)/5], [(3 : ℚ)/5]⟩
      ∧ synchronizePriceHistory [⟨1, (1 : ℚ)/2⟩] [⟨2, (1 : ℚ)/2⟩] =
        ⟨[], [], []⟩) :=
  ⟨by decide, c8_price_history_sync [⟨1, (1 : ℚ)/2⟩] [⟨2, (1 : ℚ)/2⟩]
    (by decide)⟩

/-! ## Upstream client batch price fetch (`opinionClient.ts`)

`getLatestPrice` never throws: transport failures and every defective
response shape degrade to the synthesized record
`(tokenId, price: "0", timestamp: now)`.  `getMultiplePrices` dedups the
input token list in place (`Array.from(new Set(...))` then `splice`),
fetches the prices in batches of 10 (each batch under the concurrency
limiter), and collects a `Map` keyed by token id. -/

/-- Domain `PriceData` record (`types.ts`). -/
structure PriceData where
  tokenId : String
  price : String
  timestamp : Int
deriving DecidableEq, Repr

/-- The `result` object of a latest-price response; JavaScript falsy
fields (`priceData.price || '0'`, `priceData.timestamp || Date.now()`)
are modelled as `Option`s, `none` meaning falsy/absent. -/
structure PriceResult where
  price : Option String
  timestamp : Option Int
deriving DecidableEq, Repr

/-- A latest-price response envelope (`code`, `result`); an `undefined`
field is `none`. -/
structure PriceResponse where
  code : Option Int
  result : Option PriceResult
deriving DecidableEq, Repr

/-- Outcome of `makeRequest` for a latest-price call: a rejection
(transport error, timeout, non-2xx status) or a resolved payload,
possibly null. -/
inductive FetchResult where
  | throwErr (msg : String)
  | ok (resp : Option PriceResponse)
deriving DecidableEq, Repr

/-- `response.code !== undefined && response.code !== 0`. -/
def hasErrorCode (resp : PriceResponse) : Bool :=
  match resp.code with
  | some c => c != 0
  | none => false

/-- `OpinionClient.getLatestPrice` on a given fetch outcome: every
failure path returns the zero-price fallback record; the happy path
returns the reported price and timestamp (with falsy-field defaults). -/
def getLatestPrice (tokenId : String) (now : Int) (r : FetchResult) :
    PriceData :=
  match r with
  | .throwErr _ => ⟨tokenId, "0", now⟩
  | .ok none => ⟨tokenId, "0", now⟩
  | .ok (some resp) =>
    if hasErrorCode resp then ⟨tokenId, "0", now⟩
    else
      match resp.result with
      | none => ⟨tokenId, "0", now⟩
      | some pr => ⟨tokenId, pr.price.getD "0", pr.timestamp.getD now⟩

/-- The fetch outcomes on which `getLatestPrice` synthesizes the
fallback record: rejection, null response, error `code`, or missing
`result`. -/
def isPriceFallback (r : FetchResult) : Bool :=
  match r with
  | .throwErr _ => true
  | .ok none => true
  | .ok (some resp) => hasErrorCode resp || resp.result.isNone

/-- The `splice` prelude of `getMultiplePrices`: when the deduplicated
list is shorter than the input, the caller's array is replaced in place
by it; otherwise the array is left as is. -/
def spliceDedupTokenIds (tokenIds : List String) : List String :=
  let uniqueTokenIds := uniqueFirst tokenIds
  if uniqueTokenIds.length ≠ tokenIds.length then uniqueTokenIds
  else tokenIds

/-- The batching loop `for (i = 0; i < tokenIds.length; i += batchSize)`
with `batch = tokenIds.slice(i, i + batchSize)`. -/
def toBatches {γ : Type} (n : Nat) : List γ → List (List γ)
  | [] => []
  | x :: xs => (x :: xs.take (n - 1)) :: toBatches n (xs.drop (n - 1))
termination_by l => l.length
decreasing_by
  simp only [List.length_cons, List.length_drop]
  omega

/-- `OpinionClient.getMultiplePrices` with the per-token fetch
abstracted: dedup the ids in place, fetch each batch, and collect the
results into the price map (the `catch` branch is unreachable because
`getLatestPrice` never throws). -/
def getMultiplePrices (fetch : String → PriceData)
    (tokenIds : List String) : List (String × PriceData) :=
  let tokenIds := spliceDedupTokenIds tokenIds
  if tokenIds.isEmpty then []
  else
    let batches := toBatches 10 tokenIds
    let results := (batches.map
      (fun batch => batch.map (fun tokenId => (tokenId, fetch tokenId)))).flatten
    results.foldl (fun m r => mapSet m r.1 r.2) []

/-! ### uniqueFirst and batching lemmas -/

theorem uniqueFirst_length_le {κ : Type} [DecidableEq κ] :
    ∀ (l : List κ), (uniqueFirst l).length ≤ l.length := by
  have H : ∀ (n : Nat) (l : List κ), l.length ≤ n →
      (uniqueFirst l).length ≤ l.length := by
    intro n
    induction n with
    | zero =>
      intro l hl
      rw [List.length_eq_zero.mp (Nat.le_zero.mp hl)]
      simp [uniqueFirst]
    | succ n ih =>
      intro l hl
      cases l with
      | nil => simp [uniqueFirst]
      | cons x xs =>
        rw [uniqueFirst]
        have hfl := List.length_filter_le (fun y => decide (y ≠ x)) xs
        simp only [List.length_cons] at hl ⊢
        have := ih (xs.filter (fun y => decide (y ≠ x))) (by omega)
        omega
  intro l
  exact H l.length l (le_refl _)

theorem uniqueFirst_eq_self {κ : Type} [DecidableEq κ] :
    ∀ (l : List κ), l.Nodup → uniqueFirst l = l := by
  have H : ∀ (n : Nat) (l : List κ), l.length ≤ n → l.Nodup →
      uniqueFirst l = l := by
    intro n
    induction n with
    | zero =>
      intro l hl _
      rw [List.length_eq_zero.mp (Nat.le_zero.mp hl)]
      simp [uniqueFirst]
    | succ n ih =>
      intro l hl hnd
      cases l with
      | nil => simp [uniqueFirst]
      | cons x xs =>
        simp only [List.nodup_cons] at hnd
        have hfx : xs.filter (fun y => decide (y ≠ x)) = xs := by
          apply List.filter_eq_self.mpr
          intro y hy
          simp only [decide_eq_true_eq]
          intro he
          exact hnd.1 (he ▸ hy)
        rw [uniqueFirst, hfx, ih xs (by
          simp only [List.length_cons] at hl; omega) hnd.2]
  intro l
  exact H l.length l (le_refl _)

theorem uniqueFirst_length_lt {κ : Type} [DecidableEq κ] :
    ∀ (l : List κ), ¬ l.Nodup → (uniqueFirst l).length < l.length := by
  have H : ∀ (n : Nat) (l : List κ), l.length ≤ n → ¬ l.Nodup →
      (uniqueFirst l).length < l.length := by
    intro n
    induction n with
    | zero =>
      intro l hl hnd
      rw [List.length_eq_zero.mp (Nat.le_zero.mp hl)] at hnd
      exact absurd List.nodup_nil hnd
    | succ n ih =>
      intro l hl hnd
      cases l with
      | nil => exact absurd List.nodup_nil hnd
      | cons x xs =>
        simp only [List.nodup_cons, not_and_or] at hnd
        rw [uniqueFirst]
        simp only [List.length_cons] at hl ⊢
        rcases hnd with hx | hxs
        · push_neg at hx
          have hflt : (xs.filter (fun y => decide (y ≠ x))).length <
              xs.length := by
            apply List.length_filter_lt_length_iff_exists.mpr
            exact ⟨x, hx, by simp⟩
          have := uniqueFirst_length_le (xs.filter (fun y => decide (y ≠ x)))
          omega
        · by_cases hx : x ∈ xs
          · have hflt : (xs.filter (fun y => decide (y ≠ x))).length <
                xs.length := by
              apply List.length_filter_lt_length_iff_exists.mpr
              exact ⟨x, hx, by simp⟩
            have := uniqueFirst_length_le
              (xs.filter (fun y => decide (y ≠ x)))
            omega
          · have hfx : xs.filter (fun y => decide (y ≠ x)) = xs := by
              apply List.filter_eq_self.mpr
              intro y hy
              simp only [decide_eq_true_eq]
              intro he
              exact hx (he ▸ hy)
            rw [hfx]
            have := ih xs (by omega) hxs
            omega
  intro l
  exact H l.length l (le_refl _)

theorem toBatches_flatten {γ : Type} (n : Nat) :
    ∀ (l : List γ), (toBatches n l).flatten = l := by
  have H : ∀ (fuel : Nat) (l : List γ), l.length ≤ fuel →
      (toBatches n l).flatten = l := by
    intro fuel
    induction fuel with
    | zero =>
      intro l hl
      rw [List.length_eq_zero.mp (Nat.le_zero.mp hl)]
      simp [toBatches]
    | succ f ih =>
      intro l hl
      cases l with
      | nil => simp [toBatches]
      | cons x xs =>
        rw [toBatches]
        simp only [List.flatten_cons]
        have hdl : (xs.drop (n - 1)).length ≤ f := by
          simp only [List.length_cons] at hl
          simp only [List.length_drop]
          omega
        rw [ih _ hdl]
        simp [List.take_append_drop]
  intro l
  exact H l.length l (le_refl _)

theorem mapSet_append {κ β : Type} [DecidableEq κ]
    (m : List (κ × β)) (k : κ) (v : β) (h : mapGet m k = none) :
    mapSet m k v = m ++ [(k, v)] := by
  induction m with
  | nil => rfl
  | cons e rest ih =>
    obtain ⟨ek, ev⟩ := e
    by_cases he : ek = k
    · simp only [mapGet, if_pos he] at h; cases h
    · simp only [mapGet, if_neg he] at h
      simp [mapSet, he, ih h]

theorem foldl_mapSet_of_nodup {κ β : Type} [DecidableEq κ] :
    ∀ (kvs : List (κ × β)) (acc : List (κ × β)),
      ((acc ++ kvs).map Prod.fst).Nodup →
      kvs.foldl (fun m r => mapSet m r.1 r.2) acc = acc ++ kvs := by
  intro kvs
  induction kvs with
  | nil => intro acc _; simp
  | cons kv rest ih =>
    intro acc hnd
    obtain ⟨k, v⟩ := kv
    have hk : mapGet acc k = none := by
      rw [mapGet_eq_none_iff]
      intro hmem
      have : ¬ ((acc ++ (k, v) :: rest).map Prod.fst).Nodup := by
        simp only [List.map_append, List.map_cons]
        intro hnd2
        have h1 : k ∈ acc.map Prod.fst := hmem
        have := (List.nodup_append.mp hnd2).2.2
        exact this h1 (List.mem_cons_self _ _)
      exact this hnd
    simp only [List.foldl_cons]
    rw [mapSet_append acc k v hk]
    rw [ih (acc ++ [(k, v)]) (by simpa using hnd)]
    simp

theorem mapGet_map_pair {β : Type} (f : String → β) :
    ∀ (ids : List String) (id : String), id ∈ ids →
      mapGet (ids.map (fun i => (i, f i))) id = some (f id) := by
  intro ids
  induction ids with
  | nil => intro id h; cases h
  | cons i0 rest ih =>
    intro id h
    by_cases he : i0 = id
    · subst he
      simp [mapGet]
    · rcases List.mem_cons.mp h with h1 | h1
      · exact absurd h1.symm he
      · simp only [List.map_cons, mapGet, if_neg he]
        exact ih id h1

theorem getLatestPrice_tokenId (tokenId : String) (now : Int)
    (r : FetchResult) : (getLatestPrice tokenId now r).tokenId = tokenId := by
  cases r with
  | throwErr m => rfl
  | ok o =>
    cases o with
    | none => rfl
    | some resp =>
      simp only [getLatestPrice]
      by_cases hc : hasErrorCode resp
      · rw [if_pos hc]
      · rw [if_neg hc]
        cases resp.result <;> rfl

theorem getLatestPrice_fallback (tokenId : String) (now : Int)
    (r : FetchResult) (h : isPriceFallback r = true) :
    getLatestPrice tokenId now r = ⟨tokenId, "0", now⟩ := by
  cases r with
  | throwErr m => rfl
  | ok o =>
    cases o with
    | none => rfl
    | some resp =>
      simp only [isPriceFallback, Bool.or_eq_true] at h
      simp only [getLatestPrice]
      rcases h with h | h
      · rw [if_pos h]
      · by_cases hc : hasErrorCode resp
        · rw [if_pos hc]
        · rw [if_neg hc]
          rw [Option.isNone_iff_eq_none] at h
          rw [h]

theorem map_fst_map_pair {β : Type} (f : String → β) :
    ∀ (ids : List String),
      (ids.map (fun i => (i, f i))).map Prod.fst = ids := by
  intro ids
  induction ids with
  | nil => rfl
  | cons x xs ih =>
    simp only [List.map_cons]
    rw [ih]

/-- **C5.** For every list of distinct token ids, `getMultiplePrices`
returns a map with exactly one entry per input id (keys are exactly the
input ids, in order, so its size is the input's length); every looked-up
entry carries its own token id; and any id whose upstream fetch failed
(rejection, null body, error code, or missing result) is bound to the
synthesized fallback record with price "0" — in particular this holds
when every fetch fails. -/
theorem c5_batch_price_map (ids : List String) (hnd : ids.Nodup)
    (now : Int) (fetch : String → FetchResult) :
    (getMultiplePrices (fun id => getLatestPrice id now (fetch id))
        ids).map Prod.fst = ids
    ∧ (getMultiplePrices (fun id => getLatestPrice id now (fetch id))
        ids).length = ids.length
    ∧ (∀ id ∈ ids, ∃ pd,
        mapGet (getMultiplePrices
          (fun id => getLatestPrice id now (fetch id)) ids) id = some pd
        ∧ pd.tokenId = id)
    ∧ (∀ id ∈ ids, isPriceFallback (fetch id) = true →
        mapGet (getMultiplePrices
          (fun id => getLatestPrice id now (fetch id)) ids) id =
          some ⟨id, "0", now⟩) := by
  have hsplice : spliceDedupTokenIds ids = ids := by
    rw [spliceDedupTokenIds]
    simp [uniqueFirst_eq_self ids hnd]
  have hmap : getMultiplePrices
      (fun id => getLatestPrice id now (fetch id)) ids =
      ids.map (fun i => (i, getLatestPrice i now (fetch i))) := by
    rw [getMultiplePrices, hsplice]
    by_cases hemp : ids.isEmpty
    · rw [if_pos hemp]
      rw [List.isEmpty_iff] at hemp
      rw [hemp]
      rfl
    · rw [if_neg hemp]
      have hflat : ((toBatches 10 ids).map (fun batch => batch.map
          (fun tokenId => (tokenId,
            getLatestPrice tokenId now (fetch tokenId))))).flatten =
          ids.map (fun i => (i, getLatestPrice i now (fetch i))) := by
        rw [← List.map_flatten, toBatches_flatten]
      show List.foldl (fun m r => mapSet m r.1 r.2) []
        ((toBatches 10 ids).map (fun batch => batch.map
          (fun tokenId => (tokenId,
            getLatestPrice tokenId now (fetch tokenId))))).flatten =
        ids.map (fun i => (i, getLatestPrice i now (fetch i)))
      rw [hflat]
      rw [foldl_mapSet_of_nodup _ []]
      · rw [List.nil_append]
      · simp only [List.nil_append]
        rw [map_fst_map_pair]
        exact hnd
  refine ⟨?_, ?_, ?_, ?_⟩
  · rw [hmap, map_fst_map_pair]
  · rw [hmap, List.length_map]
  · intro id hid
    rw [hmap, mapGet_map_pair _ ids id hid]
    exact ⟨_, rfl, getLatestPrice_tokenId id now (fetch id)⟩
  · intro id hid hfb
    rw [hmap, mapGet_map_pair _ ids id hid,
      getLatestPrice_fallback id now (fetch id) hfb]

/-- Witness for C5: two distinct ids whose fetches both reject. -/
theorem c5_batch_price_map_witness :
    ((["yes1", "no1"] : List String).Nodup
    ∧ ((getMultiplePrices (fun id => getLatestPrice id 0
          ((fun _ => FetchResult.throwErr
            "Opinion API request failed: boom") id))
        ["yes1", "no1"]).map Prod.fst = ["yes1", "no1"]
      ∧ (getMultiplePrices (fun id => getLatestPrice id 0
          ((fun _ => FetchResult.throwErr
            "Opinion API request failed: boom") id))
        ["yes1", "no1"]).length = (["yes1", "no1"] : List String).length
      ∧ (∀ id ∈ (["yes1", "no1"] : List String), ∃ pd,
          mapGet (getMultiplePrices (fun id => getLatestPrice id 0
            ((fun _ => FetchResult.throwErr
              "Opinion API request failed: boom") id))
            ["yes1", "no1"]) id = some pd ∧ pd.tokenId = id)
      ∧ (∀ id ∈ (["yes1", "no1"] : List String),
          isPriceFallback ((fun _ => FetchResult.throwErr
            "Opinion API request failed: boom") id) = true →
          mapGet (getMultiplePrices (fun id => getLatestPrice id 0
            ((fun _ => FetchResult.throwErr
              "Opinion API request failed: boom") id))
            ["yes1", "no1"]) id = some ⟨id, "0", 0⟩))) :=
  ⟨by decide, c5_batch_price_map ["yes1", "no1"] (by decide) 0
    (fun _ => FetchResult.throwErr "Opinion API request failed: boom")⟩

/-- **C10.** The `splice` prelude of `getMultiplePrices` mutates the
caller's array: when the input has duplicate ids, the array is replaced
in place by its first-occurrence deduplication, so it is strictly shorter
after the call; an input without duplicates is left unchanged. -/
theorem c10_splice_mutation (ids : List String) :
    (¬ ids.Nodup →
      spliceDedupTokenIds ids = uniqueFirst ids
      ∧ (spliceDedupTokenIds ids).length < ids.length)
    ∧ (ids.Nodup → spliceDedupTokenIds ids = ids) := by
  constructor
  · intro hdup
    have hlt := uniqueFirst_length_lt ids hdup
    have hne : ¬ (uniqueFirst ids).length = ids.length := by omega
    have heq : spliceDedupTokenIds ids = uniqueFirst ids := by
      rw [spliceDedupTokenIds]
      exact if_pos hne
    exact ⟨heq, by rw [heq]; exact hlt⟩
  · intro hnd
    rw [spliceDedupTokenIds]
    simp [uniqueFirst_eq_self ids hnd]

/-- Witness for C10: an input with a duplicate is shortened in place to
its deduplicated form; a duplicate-free input is untouched. -/
theorem c10_splice_mutation_witness :
    (¬ (["a", "b", "a"] : List String).Nodup
    ∧ (spliceDedupTokenIds ["a", "b", "a"] = uniqueFirst ["a", "b", "a"]
      ∧ (spliceDedupTokenIds ["a", "b", "a"]).length <
        (["a", "b", "a"] : List String).length))
    ∧ ((["a", "b"] : List String).Nodup
    ∧ spliceDedupTokenIds ["a", "b"] = ["a", "b"]) :=
  ⟨⟨by decide, (c10_splice_mutation ["a", "b", "a"]).1 (by decide)⟩,
    ⟨by decide, (c10_splice_mutation ["a", "b"]).2 (by decide)⟩⟩

/-! ## Periodic snapshot job shutdown (`syncService.ts`, class
`SyncService`)

`stop()` clears `isRunning` and the interval timer.  `shutdown()` calls
`stop()` and then runs
`while (this.isRunning && (Date.now() - startTime) < 30000) await 100ms`,
intending (per its own comment) to wait for any ongoing sync to finish.
`performSync` never reads or writes `isRunning`, and the loop body changes
nothing but time, so the loop's iteration count depends only on the value
of `isRunning` when the loop starts — which `stop()` has just set to
`false`.  The wait loop is modelled with its iteration budget of
`30000 / 100 = 300` sleeps. -/

/-- The lifecycle flags of `SyncService` (`isRunning`, whether
`intervalId` is set). -/
structure SyncServiceState where
  isRunning : Bool := false
  intervalActive : Bool := false
deriving DecidableEq, Repr

/-- `SyncService.stop`: a no-op when not running; otherwise clear
`isRunning` and the interval timer. -/
def syncStop (s : SyncServiceState) : SyncServiceState :=
  if s.isRunning then { s with isRunning := false, intervalActive := false }
  else s

/-- The `shutdown` wait loop: while `isRunning` holds (and the 30 s
budget, here the fuel, is not exhausted) sleep 100 ms; returns the number
of sleeps performed.  The body mutates nothing the condition reads. -/
def shutdownPollLoop (isRunning : Bool) : Nat → Nat
  | 0 => 0
  | fuel + 1 => if isRunning then 1 + shutdownPollLoop isRunning fuel else 0

/-- `SyncService.shutdown`: `stop()`, then the wait loop (30 s budget at
100 ms per sleep), returning the final state and the number of sleeps. -/
def syncShutdown (s : SyncServiceState) : SyncServiceState × Nat :=
  let s' := syncStop s
  (s', shutdownPollLoop s'.isRunning 300)

/-- **C9.** Evaluation of the shutdown code: `stop()` unconditionally
leaves `isRunning = false`, and therefore `shutdown()` performs zero wait
iterations — it returns immediately for every starting state, including
one where a sync cycle is still in flight.  (The wait loop counts
`if running then fuel else 0` sleeps, so it could only ever wait while
`isRunning` is true, which `stop()` has just made impossible; `isRunning`
tracks the started/stopped lifecycle, not an in-flight sync.)  This
contradicts the claim (and the code's own comment) that shutdown polls
until an in-flight sync finishes. -/
theorem c9_shutdown_never_waits (s : SyncServiceState) :
    (syncStop s).isRunning = false
    ∧ (syncShutdown s).2 = 0
    ∧ (∀ (running : Bool) (fuel : Nat),
        shutdownPollLoop running fuel = if running then fuel else 0) := by
  have hstop : (syncStop s).isRunning = false := by
    rw [syncStop]
    by_cases h : s.isRunning
    · rw [if_pos h]
    · rw [if_neg h]
      exact Bool.not_eq_true _ |>.mp h
  have hloop : ∀ (running : Bool) (fuel : Nat),
      shutdownPollLoop running fuel = if running then fuel else 0 := by
    intro running fuel
    induction fuel with
    | zero => cases running <;> simp [shutdownPollLoop]
    | succ f ih =>
      cases running with
      | false => simp [shutdownPollLoop]
      | true => simp [shutdownPollLoop, ih]; omega
  refine ⟨hstop, ?_, hloop⟩
  show shutdownPollLoop (syncStop s).isRunning 300 = 0
  rw [hstop, hloop]
  rfl
